import Mathlib

/-!
Verification development for the RustDirStat scan-tree engine
(`src/lib.rs`, `src/bin/tui.rs`).

Filesystem paths are modelled as lists of components (`List String`);
`u64` values are modelled as `Nat` together with the explicit saturation
`satAdd` at `2 ^ 64 - 1` wherever the source uses `u64::saturating_add`.
The directory walker (`jwalk`) is external to the repository, so a scan is
modelled as a fold over the stream of walker events it produces; each event
carries what `scan_directory_with_report_shared` inspects: the entry's path
relative to the root, whether it is a directory, and the metadata result
(length or I/O error) for files, or a walker-level error.
-/

namespace RustDirStat

/-- Largest value of a `u64`. -/
def U64MAX : Nat := 2 ^ 64 - 1

/-- Model of `u64::saturating_add`. -/
def satAdd (a b : Nat) : Nat := min (a + b) U64MAX

/-- Model of `struct Node` from `src/lib.rs`: a file or directory node of the
scan tree.  `path` is the filesystem path as a list of components. -/
inductive Node where
  | mk (name : String) (size : Nat) (is_dir : Bool) (children : List Node)
      (path : List String)

def Node.name : Node → String
  | .mk n _ _ _ _ => n

def Node.size : Node → Nat
  | .mk _ s _ _ _ => s

def Node.is_dir : Node → Bool
  | .mk _ _ d _ _ => d

def Node.children : Node → List Node
  | .mk _ _ _ cs _ => cs

def Node.path : Node → List String
  | .mk _ _ _ _ p => p

@[simp] theorem Node.name_mk (n s d cs p) : (Node.mk n s d cs p).name = n := rfl
@[simp] theorem Node.size_mk (n s d cs p) : (Node.mk n s d cs p).size = s := rfl
@[simp] theorem Node.is_dir_mk (n s d cs p) : (Node.mk n s d cs p).is_dir = d := rfl
@[simp] theorem Node.children_mk (n s d cs p) : (Node.mk n s d cs p).children = cs := rfl
@[simp] theorem Node.path_mk (n s d cs p) : (Node.mk n s d cs p).path = p := rfl

/-- Model of `Node::new`: size `0`, no children. -/
def Node.new (name : String) (path : List String) (is_dir : Bool) : Node :=
  .mk name 0 is_dir [] path

/-- First child whose `name` equals `nm` — the lookup
`children.iter().position(|c| c.name == name)` resolved to the child itself. -/
def findChild : List Node → String → Option Node
  | [], _ => none
  | c :: rest, nm => if c.name = nm then some c else findChild rest nm

/-- Replace the first child whose `name` equals `nm` by `v`
(`current.children[idx] = …` at the index found by `position`). -/
def setChild : List Node → String → Node → List Node
  | [], _, _ => []
  | c :: rest, nm, v => if c.name = nm then v :: rest else c :: setChild rest nm v

/-- Remove the first child whose `name` equals `nm`. -/
def removeChild : List Node → String → List Node
  | [], _ => []
  | c :: rest, nm => if c.name = nm then rest else c :: removeChild rest nm

/-- Model of `ensure_dir_path` from `src/lib.rs`: walk the relative path
component by component, reusing the first child with a matching name or
pushing a fresh directory node, and set `is_dir = true` on each component
node entered. -/
def ensure_dir_path (node : Node) : List String → Node
  | [] => node
  | c :: rest =>
    match findChild node.children c with
    | some child =>
      Node.mk node.name node.size node.is_dir
        (setChild node.children c
          (ensure_dir_path
            (Node.mk child.name child.size true child.children child.path) rest))
        node.path
    | none =>
      let fresh := Node.new c (node.path ++ [c]) true
      Node.mk node.name node.size node.is_dir
        (node.children ++
          [ensure_dir_path
            (Node.mk fresh.name fresh.size true fresh.children fresh.path) rest])
        node.path

/-- Model of `add_file_to_tree` from `src/lib.rs`: walk the relative path,
creating intermediate directory nodes (`is_dir = !is_leaf`) as needed; at the
terminal component set `is_dir = false` and accumulate the size with
`saturating_add`. -/
def add_file_to_tree (node : Node) : List String → Nat → Node
  | [], _ => node
  | [c], sz =>
    match findChild node.children c with
    | some child =>
      Node.mk node.name node.size node.is_dir
        (setChild node.children c
          (Node.mk child.name (satAdd child.size sz) false child.children child.path))
        node.path
    | none =>
      let fresh := Node.new c (node.path ++ [c]) false
      Node.mk node.name node.size node.is_dir
        (node.children ++
          [Node.mk fresh.name (satAdd fresh.size sz) false fresh.children fresh.path])
        node.path
  | c :: c2 :: rest, sz =>
    match findChild node.children c with
    | some child =>
      Node.mk node.name node.size node.is_dir
        (setChild node.children c
          (add_file_to_tree
            (Node.mk child.name child.size true child.children child.path)
            (c2 :: rest) sz))
        node.path
    | none =>
      let fresh := Node.new c (node.path ++ [c]) true
      Node.mk node.name node.size node.is_dir
        (node.children ++
          [add_file_to_tree
            (Node.mk fresh.name fresh.size true fresh.children fresh.path)
            (c2 :: rest) sz])
        node.path

/-- The saturating fold `total = total.saturating_add(child.size)` used by
`calculate_dir_sizes` (and by the spec-modelled deletion re-aggregation). -/
def resum (cs : List Node) : Nat := cs.foldl (fun acc c => satAdd acc c.size) 0

mutual
/-- Model of `calculate_dir_sizes` from `src/lib.rs`: a node with
`is_dir = false` is returned unchanged (its children, if any, are not
visited); a directory node gets `size` set to the saturating sum of its
(recursively recomputed) children's sizes. -/
def calculate_dir_sizes : Node → Node
  | .mk nm sz d cs p =>
    if d then
      let cs2 := calcList cs
      Node.mk nm (resum cs2) d cs2 p
    else
      Node.mk nm sz d cs p

def calcList : List Node → List Node
  | [] => []
  | c :: rest => calculate_dir_sizes c :: calcList rest
end

/-- The child ordering of `impl Ord for Node`:
`other.size.cmp(&self.size)`, i.e. descending by size. -/
def nodeLe (a b : Node) : Prop := b.size ≤ a.size

instance : DecidableRel nodeLe := fun a b => inferInstanceAs (Decidable (b.size ≤ a.size))

mutual
/-- Model of `sort_tree` from `src/lib.rs`: stably sort every `children`
list by size descending, recursing into every child.  Rust's `Vec::sort` is a
stable sort by the `Ord` instance above; a stable sort is functionally
characterised by its comparator, so it is modelled by stable insertion sort
with the same comparator. -/
def sort_tree : Node → Node
  | .mk nm sz d cs p => Node.mk nm sz d (sortList (cs.insertionSort nodeLe)) p
termination_by n => sizeOf n
decreasing_by
  have h : ∀ l : List Node, sizeOf (l.insertionSort nodeLe) = sizeOf l :=
    fun l => (List.perm_insertionSort nodeLe l).sizeOf_eq_sizeOf
  simp [h]
  omega

def sortList : List Node → List Node
  | [] => []
  | c :: rest => sort_tree c :: sortList rest
termination_by l => sizeOf l
decreasing_by
  all_goals simp
  all_goals omega
end

/-- Model of `struct SkippedEntry`: a permission failure recorded in the scan
report; `path` is `none` when the walker-level error carried no path. -/
structure SkippedEntry where
  path : Option (List String)
  message : String
deriving DecidableEq

/-- An I/O error as classified by `is_permission_denied`. -/
structure IoErr where
  permDenied : Bool
  message : String

/-- One event of the `jwalk` entry stream, carrying exactly what the scan
loop inspects: `dirEntry rel` is an `Ok` entry with `file_type().is_dir()`;
`fileEntry rel md` is an `Ok` non-directory entry whose `entry.metadata()`
returned `md`; `walkErr e` is an `Err` item of the walker.  `rel` is the
entry's path relative to the scanned root (`[]` for the root itself). -/
inductive WalkEvent where
  | dirEntry (rel : List String)
  | fileEntry (rel : List String) (md : Except IoErr Nat)
  | walkErr (e : IoErr)

/-- The mutable state threaded through the scan loop.  `stores` is the
sequence of values the walker stores into `SharedProgress.files_scanned`
(one `store` per processed file); `lastPath` mirrors
`SharedProgress.last_path`. -/
structure ScanSt where
  root : Node
  report : List SkippedEntry
  filesScanned : Nat
  stores : List Nat
  lastPath : Option (List String)

/-- One iteration of the `for entry in WalkDir::new(&root_path)` loop of
`scan_directory_with_report_shared`. -/
def scanStep (rootPath : List String) (st : ScanSt) : WalkEvent → ScanSt
  | .dirEntry rel =>
    if rel = [] then st
    else
      { st with
        lastPath := some (rootPath ++ rel)
        root := ensure_dir_path st.root rel }
  | .fileEntry rel md =>
    if rel = [] then st
    else
      match md with
      | .error e =>
        if e.permDenied then
          { st with
            lastPath := some (rootPath ++ rel)
            report := st.report ++ [⟨some (rootPath ++ rel), e.message⟩] }
        else
          { st with lastPath := some (rootPath ++ rel) }
      | .ok len =>
        { st with
          lastPath := some (rootPath ++ rel)
          filesScanned := st.filesScanned + 1
          stores := st.stores ++ [st.filesScanned + 1]
          root := add_file_to_tree st.root rel len }
  | .walkErr e =>
    if e.permDenied then
      { st with report := st.report ++ [⟨none, e.message⟩] }
    else st

/-- The scan loop folded over the event stream, starting from the root node
built by `Node::new(file_name-or-".", root_path, true)`, followed by the
`calculate_dir_sizes` and `sort_tree` passes. -/
def runScan (rootPath : List String) (events : List WalkEvent) : ScanSt :=
  let rootName := (rootPath.getLast?).getD "."
  let st0 : ScanSt := ⟨Node.new rootName rootPath true, [], 0, [], none⟩
  let st := events.foldl (scanStep rootPath) st0
  { st with root := sort_tree (calculate_dir_sizes st.root) }

/-- Model of `scan_directory_with_report_shared`: its Rust signature is
`anyhow::Result<(Node, ScanReport)>`, mirrored by the `Except` wrapper; the
body has no early return, so the result is always `ok`. -/
def scan_directory_with_report_shared (rootPath : List String)
    (events : List WalkEvent) : Except String (Node × List SkippedEntry) :=
  let st := runScan rootPath events
  .ok (st.root, st.report)

/-- Resolve a root-relative component path to the node it denotes, following
first-match-by-name children, as both the tree builder and the TUI do. -/
def lookupNode (n : Node) : List String → Option Node
  | [] => some n
  | c :: rest =>
    match findChild n.children c with
    | some child => lookupNode child rest
    | none => none

/-- Exact (non-saturating) sum of the children's `size` fields. -/
def sumSizes : List Node → Nat
  | [] => 0
  | c :: rest => c.size + sumSizes rest

mutual
/-- Checker for the invariant exactly as the spec states it: every node with
`is_dir = true` has `size` equal to the (exact) sum of its children's sizes,
recursively down to the leaves. -/
def dirSizesExactB : Node → Bool
  | .mk _ sz d cs _ => (!d || sz == sumSizes cs) && dirSizesExactL cs

def dirSizesExactL : List Node → Bool
  | [] => true
  | c :: rest => dirSizesExactB c && dirSizesExactL rest
end

mutual
/-- Checker for the aggregation invariant the code actually establishes:
every directory node reachable from the root through directory nodes has
`size` equal to the saturating sum of its children's sizes; the recursion
stops below nodes marked `is_dir = false`, which `calculate_dir_sizes` does
not visit. -/
def aggInvariant : Node → Bool
  | .mk _ sz d cs _ => if d then (sz == resum cs) && aggInvariantL cs else true

def aggInvariantL : List Node → Bool
  | [] => true
  | c :: rest => aggInvariant c && aggInvariantL rest
end

/-- Adjacent pairs are descending by `size`. -/
def descBySizes : List Node → Bool
  | [] => true
  | [_] => true
  | a :: b :: rest => (b.size ≤ a.size) && descBySizes (b :: rest)

mutual
/-- Checker for claim C2: in every node of the tree, the children sequence
is sorted by size descending. -/
def sortedDescTree : Node → Bool
  | .mk _ _ _ cs _ => descBySizes cs && sortedDescL cs

def sortedDescL : List Node → Bool
  | [] => true
  | c :: rest => sortedDescTree c && sortedDescL rest
end

mutual
/-- All sizes in the tree fit in a `u64`. -/
def sizesBoundedB : Node → Bool
  | .mk _ sz _ cs _ => (sz ≤ U64MAX) && sizesBoundedL cs

def sizesBoundedL : List Node → Bool
  | [] => true
  | c :: rest => sizesBoundedB c && sizesBoundedL rest
end

/-- Every node on the chain denoted by the component path (the node itself
included) is a directory. -/
def chainAllDirs (n : Node) : List String → Bool
  | [] => n.is_dir
  | c :: rest =>
    n.is_dir &&
      match findChild n.children c with
      | some child => chainAllDirs child rest
      | none => true

mutual
/-- Collect `(path, size)` of every `is_dir = false` node of the tree. -/
def fileSizes : Node → List (List String × Nat)
  | .mk _ sz d cs p =>
    (if d then [] else [(p, sz)]) ++ fileSizesL cs

def fileSizesL : List Node → List (List String × Nat)
  | [] => []
  | c :: rest => fileSizes c ++ fileSizesL rest
end

/-- The tree produced by the loop alone (tree construction, before the
`calculate_dir_sizes` and `sort_tree` passes). -/
def builtRoot (rootPath : List String) (events : List WalkEvent) : Node :=
  (events.foldl (scanStep rootPath)
    ⟨Node.new ((rootPath.getLast?).getD ".") rootPath true, [], 0, [], none⟩).root

/-- Nondecreasing list of naturals. -/
def nondecr : List Nat → Bool
  | [] => true
  | [_] => true
  | a :: b :: rest => (a ≤ b) && nondecr (b :: rest)

/-- `target` with the leading components `base` removed, when `base` is a
leading part of `target` — `Path::strip_prefix`. -/
def relativeTo : List String → List String → Option (List String)
  | [], t => some t
  | _ :: _, [] => none
  | b :: bs, t :: ts => if b = t then relativeTo bs ts else none

-- ===========================================================================
-- Mutation engine (deletion) and TUI navigation (src/bin/tui.rs)
-- ===========================================================================

/-- Modelled from the spec: `Node::delete_node` is invoked by
`App::confirm_deletion` in `src/bin/tui.rs` but is defined nowhere under
`src/`.  Following §4.5 of the spec, the in-memory removal walks the path
from the root, removes the matching node (with its entire subtree) from its
parent's children, and re-aggregates every ancestor's `size` on the path
from the removed node up to the root, re-running the Aggregator's saturating
sum locally.  `deleteRel` is the walk over the root-relative components. -/
def deleteRel (n : Node) : List String → Except String Node
  | [] => .error "empty target path"
  | [c] =>
    match findChild n.children c with
    | some _ =>
      let cs := removeChild n.children c
      .ok (Node.mk n.name (resum cs) n.is_dir cs n.path)
    | none => .error "node not found"
  | c :: c2 :: rest =>
    match findChild n.children c with
    | some child =>
      match deleteRel child (c2 :: rest) with
      | .ok child2 =>
        let cs := setChild n.children c child2
        .ok (Node.mk n.name (resum cs) n.is_dir cs n.path)
      | .error e => .error e
    | none => .error "node not found"

/-- Modelled from the spec: the absolute-path entry point of the deletion —
the target must lie strictly under the root (§4.5: "file or directory, not
the root"); the filesystem removal itself is outside the model (on its
failure the Rust caller leaves the tree untouched, see
`App::confirm_deletion`). -/
def delete_node (root : Node) (target : List String) : Except String Node :=
  match relativeTo root.path target with
  | some [] => .error "cannot delete the scan root"
  | some rel => deleteRel root rel
  | none => .error "target is not under the root"

/-- Model of `NavigationState.path` from `src/bin/tui.rs`: the stack of
nodes from the root to the currently viewed directory.  (`selected` plays no
role in the claims and is dropped.) -/
def drillUp (nav : List Node) : List Node :=
  if 1 < nav.length then nav.dropLast else nav

/-- Resolve the chain of nodes along a relative component path (the loop of
`rebuild_from_root` that pushes one child per component). -/
def resolveChain (n : Node) : List String → Option (List Node)
  | [] => some []
  | c :: rest =>
    match findChild n.children c with
    | some child =>
      match resolveChain child rest with
      | some l => some (child :: l)
      | none => none
    | none => none

/-- Model of `NavigationState::rebuild_from_root` from `src/bin/tui.rs`:
reconstruct the cursor stack from the current root using the former cursor
target's path; if any component fails to resolve (or the target is not under
the root), the whole stack is reset to `[root]`. -/
def rebuild_from_root (nav : List Node) (root : Node) : List Node :=
  match nav.getLast? with
  | none => [root]
  | some lastNode =>
    if lastNode.path = root.path then [root]
    else
      match relativeTo root.path lastNode.path with
      | some rel =>
        match resolveChain root rel with
        | some chain => root :: chain
        | none => [root]
      | none => [root]

/-- Model of `App::confirm_deletion` from `src/bin/tui.rs` (the in-memory
part): note whether the currently viewed node is the deletion target, run
the (spec-modelled) `delete_node`, and on success drill up when the current
directory was deleted, then rebuild the cursor from the updated root.  On
failure nothing is mutated. -/
def confirm_deletion (root : Node) (nav : List Node) (target : List String) :
    Node × List Node :=
  let deletingCurrent := (nav.getLast?).map Node.path = some target
  match delete_node root target with
  | .ok root2 =>
    let nav1 := if deletingCurrent then drillUp nav else nav
    (root2, rebuild_from_root nav1 root2)
  | .error _ => (root, nav)

/-- Replace the children of the node at the given relative path by `[]`,
leaving everything else (sizes included) unchanged.  Used only to state that
a shadowed node's children are excluded from aggregated totals. -/
def pruneAt : Node → List String → Node
  | n, [] => Node.mk n.name n.size n.is_dir [] n.path
  | n, c :: rest =>
    match findChild n.children c with
    | some child =>
      Node.mk n.name n.size n.is_dir
        (setChild n.children c (pruneAt child rest)) n.path
    | none => n

-- ===========================================================================
-- Basic lemmas
-- ===========================================================================

theorem satAdd_le_max (a b : Nat) : satAdd a b ≤ U64MAX := by
  simp [satAdd]

theorem satAdd_of_le (a b : Nat) (h : a + b ≤ U64MAX) : satAdd a b = a + b := by
  simp [satAdd, Nat.min_eq_left h]

theorem foldl_satAdd (cs : List Node) :
    ∀ a : Nat, a ≤ U64MAX →
      cs.foldl (fun acc c => satAdd acc c.size) a = min (a + sumSizes cs) U64MAX := by
  induction cs with
  | nil => intro a ha; simp [sumSizes, Nat.min_eq_left ha]
  | cons c rest ih =>
    intro a ha
    rw [List.foldl_cons, ih (satAdd a c.size) (satAdd_le_max _ _)]
    simp only [satAdd, sumSizes]
    omega

theorem resum_eq_min (cs : List Node) : resum cs = min (sumSizes cs) U64MAX := by
  simpa using foldl_satAdd cs 0 (by simp [U64MAX])

theorem resum_of_le (cs : List Node) (h : sumSizes cs ≤ U64MAX) :
    resum cs = sumSizes cs := by
  rw [resum_eq_min]; omega

theorem resum_le_max (cs : List Node) : resum cs ≤ U64MAX := by
  rw [resum_eq_min]; omega

theorem findChild_mem : ∀ {cs : List Node} {nm : String} {c : Node},
    findChild cs nm = some c → c ∈ cs := by
  intro cs
  induction cs with
  | nil => intro nm c h; simp [findChild] at h
  | cons a rest ih =>
    intro nm c h
    by_cases ha : a.name = nm
    · simp [findChild, ha] at h; simp [← h]
    · simp [findChild, ha] at h
      exact List.mem_cons_of_mem _ (ih h)

theorem findChild_name : ∀ {cs : List Node} {nm : String} {c : Node},
    findChild cs nm = some c → c.name = nm := by
  intro cs
  induction cs with
  | nil => intro nm c h; simp [findChild] at h
  | cons a rest ih =>
    intro nm c h
    by_cases ha : a.name = nm
    · simp [findChild, ha] at h; rw [← h]; exact ha
    · simp [findChild, ha] at h; exact ih h

theorem findChild_none : ∀ {cs : List Node} {nm : String},
    findChild cs nm = none → ∀ c ∈ cs, c.name ≠ nm := by
  intro cs
  induction cs with
  | nil => intro nm _ c hc; simp at hc
  | cons a rest ih =>
    intro nm h c hc
    by_cases ha : a.name = nm
    · simp [findChild, ha] at h
    · simp [findChild, ha] at h
      rcases List.mem_cons.1 hc with rfl | hc
      · exact ha
      · exact ih h c hc

theorem findChild_append_none {cs : List Node} {nm : String} (v : Node)
    (h : findChild cs nm = none) (hv : v.name = nm) :
    findChild (cs ++ [v]) nm = some v := by
  induction cs with
  | nil => simp [findChild, hv]
  | cons a rest ih =>
    by_cases ha : a.name = nm
    · simp [findChild, ha] at h
    · simp [findChild, ha] at h ⊢
      exact ih h

theorem findChild_setChild_self : ∀ {cs : List Node} {nm : String} {c v : Node},
    findChild cs nm = some c → v.name = nm →
    findChild (setChild cs nm v) nm = some v := by
  intro cs
  induction cs with
  | nil => intro nm c v h _; simp [findChild] at h
  | cons a rest ih =>
    intro nm c v h hv
    by_cases ha : a.name = nm
    · simp [findChild, setChild, ha, hv]
    · simp [findChild, setChild, ha] at h ⊢
      exact ih h hv

theorem findChild_setChild_other {cs : List Node} {nm nm' : String} {v : Node}
    (hv : v.name = nm) (hne : nm' ≠ nm) :
    findChild (setChild cs nm v) nm' = findChild cs nm' := by
  induction cs with
  | nil => simp [setChild]
  | cons a rest ih =>
    by_cases ha : a.name = nm
    · have h1 : ¬ v.name = nm' := by rw [hv]; exact fun h => hne h.symm
      have h2 : ¬ a.name = nm' := by rw [ha]; exact fun h => hne h.symm
      have h3 : ¬ nm = nm' := fun h => hne h.symm
      simp [setChild, ha, findChild, h1, h2, h3]
    · simp only [setChild, if_neg ha, findChild]
      by_cases ha' : a.name = nm'
      · simp [ha']
      · simp [ha', ih]

theorem findChild_removeChild_other {cs : List Node} {nm nm' : String}
    (hne : nm' ≠ nm) :
    findChild (removeChild cs nm) nm' = findChild cs nm' := by
  induction cs with
  | nil => simp [removeChild]
  | cons a rest ih =>
    by_cases ha : a.name = nm
    · have h2 : ¬ a.name = nm' := by rw [ha]; exact fun h => hne h.symm
      have h3 : ¬ nm = nm' := fun h => hne h.symm
      simp [removeChild, ha, findChild, h2, h3]
    · simp only [removeChild, if_neg ha, findChild]
      by_cases ha' : a.name = nm'
      · simp [ha']
      · simp [ha', ih]

-- ===========================================================================
-- C8: monotone progress stores
-- ===========================================================================

theorem nondecr_append_last : ∀ (l : List Nat) (a : Nat),
    nondecr l = true → (∀ x ∈ l, x ≤ a) → nondecr (l ++ [a]) = true
  | [], a, _, _ => rfl
  | [b], a, _, hle => by
    simp [nondecr]
    exact hle b (by simp)
  | b :: c :: rest, a, h, hle => by
    have hbc : b ≤ c ∧ nondecr (c :: rest) = true := by
      simp [nondecr] at h; exact h
    have ih := nondecr_append_last (c :: rest) a hbc.2
      (fun x hx => hle x (List.mem_cons_of_mem _ hx))
    simp only [List.cons_append] at ih ⊢
    simp [nondecr, hbc.1]
    simpa [nondecr] using ih

theorem scan_stores_invariant (rootPath : List String) :
    ∀ (events : List WalkEvent) (st : ScanSt),
      nondecr st.stores = true → (∀ x ∈ st.stores, x ≤ st.filesScanned) →
      nondecr (events.foldl (scanStep rootPath) st).stores = true ∧
        ∀ x ∈ (events.foldl (scanStep rootPath) st).stores,
          x ≤ (events.foldl (scanStep rootPath) st).filesScanned := by
  intro events
  induction events with
  | nil => intro st h1 h2; exact ⟨h1, h2⟩
  | cons ev rest ih =>
    intro st h1 h2
    rw [List.foldl_cons]
    apply ih
    · cases ev with
      | dirEntry rel =>
        by_cases hrel : rel = [] <;> simp [scanStep, hrel, h1]
      | fileEntry rel md =>
        by_cases hrel : rel = []
        · simpa [scanStep, hrel] using h1
        · cases md with
          | error e =>
            by_cases hp : e.permDenied <;> simp [scanStep, hrel, hp, h1]
          | ok len =>
            simp only [scanStep, if_neg hrel]
            exact nondecr_append_last _ _ h1
              (fun x hx => Nat.le_succ_of_le (h2 x hx))
      | walkErr e =>
        by_cases hp : e.permDenied <;> simp [scanStep, hp, h1]
    · cases ev with
      | dirEntry rel =>
        by_cases hrel : rel = [] <;> simp [scanStep, hrel] <;> exact h2
      | fileEntry rel md =>
        by_cases hrel : rel = []
        · simpa [scanStep, hrel] using h2
        · cases md with
          | error e =>
            by_cases hp : e.permDenied <;> simp [scanStep, hrel, hp] <;> exact h2
          | ok len =>
            simp only [scanStep, if_neg hrel]
            intro x hx
            simp only [List.mem_append, List.mem_singleton] at hx
            rcases hx with hx | hx
            · exact Nat.le_succ_of_le (h2 x hx)
            · simp [hx]
      | walkErr e =>
        by_cases hp : e.permDenied <;> simp [scanStep, hp] <;> exact h2

/-- C8: during a single scan, the sequence of values the walker stores into
`SharedProgress.files_scanned` is monotonically non-decreasing, so two polls
never observe the counter decrease. -/
theorem C8_files_scanned_stores_monotone (rootPath : List String)
    (events : List WalkEvent) :
    nondecr ((runScan rootPath events).stores) = true := by
  have h := scan_stores_invariant rootPath events
    ⟨Node.new ((rootPath.getLast?).getD ".") rootPath true, [], 0, [], none⟩
    (by simp [nondecr]) (by simp)
  simpa [runScan] using h.1

-- ===========================================================================
-- C4: the scan never returns an error result
-- ===========================================================================

/-- C4, counterexample: for a nonexistent root the walker yields a single
non-permission error event ("No such file or directory"); the claim says the
scan must return an error result and no tree, but
`scan_directory_with_report_shared` has no failing path at all and returns
`Ok` with a bare root tree. -/
theorem C4_counterexample :
    scan_directory_with_report_shared ["tmp", "missing"]
      [.walkErr ⟨false, "No such file or directory (os error 2)"⟩] =
      .ok (Node.mk "missing" 0 true [] ["tmp", "missing"], []) := by
  simp [scan_directory_with_report_shared, runScan, scanStep, Node.new,
    calculate_dir_sizes, calcList, resum, sort_tree, sortList,
    List.insertionSort]

theorem scan_root_unchanged_of_walkErr (rootPath : List String) :
    ∀ (events : List WalkEvent) (st : ScanSt),
      (∀ ev ∈ events, ∃ e, ev = WalkEvent.walkErr e) →
      (events.foldl (scanStep rootPath) st).root = st.root := by
  intro events
  induction events with
  | nil => intro st _; rfl
  | cons ev rest ih =>
    intro st hall
    rw [List.foldl_cons]
    rw [ih _ (fun e he => hall e (List.mem_cons_of_mem _ he))]
    rcases hall ev (List.mem_cons_self _ _) with ⟨e, rfl⟩
    by_cases hp : e.permDenied <;> simp [scanStep, hp]

/-- C4, amended: the scan never returns an error result; when the root is
unreachable the walker produces only walker-level error events, and the scan
still returns `Ok` with the bare root node — no children, size `0` — while
only permission-denied events are recorded. -/
theorem C4_amended (rootPath : List String) (events : List WalkEvent)
    (hall : ∀ ev ∈ events, ∃ e, ev = WalkEvent.walkErr e) :
    ∃ rep, scan_directory_with_report_shared rootPath events =
        .ok (Node.mk ((rootPath.getLast?).getD ".") 0 true [] rootPath, rep) := by
  refine ⟨(runScan rootPath events).report, ?_⟩
  have hroot := scan_root_unchanged_of_walkErr rootPath events
    ⟨Node.new ((rootPath.getLast?).getD ".") rootPath true, [], 0, [], none⟩ hall
  simp only [scan_directory_with_report_shared, runScan]
  rw [hroot]
  simp [Node.new, calculate_dir_sizes, calcList, resum, sort_tree, sortList,
    List.insertionSort]

/-- Witness for `C4_amended` at a concrete unreachable-root event stream. -/
theorem C4_amended_witness :
    ∃ rep, scan_directory_with_report_shared ["tmp", "gone"]
        [.walkErr ⟨true, "Permission denied (os error 13)"⟩] =
        .ok (Node.mk "gone" 0 true [] ["tmp", "gone"], rep) :=
  C4_amended ["tmp", "gone"] [.walkErr ⟨true, "Permission denied (os error 13)"⟩]
    (by intro ev hev; simp at hev; exact ⟨_, hev⟩)

-- ===========================================================================
-- C5: non-permission per-entry failures
-- ===========================================================================

/-- The components of the scan state that feed the scan's final result —
everything but `lastPath`, which no later step reads. -/
def ScanSt.core (st : ScanSt) : Node × List SkippedEntry × Nat × List Nat :=
  (st.root, st.report, st.filesScanned, st.stores)

/-- A per-entry traversal failure that is not permission-denied: a metadata
error on an entry, or a walker-level error, with `permDenied = false`. -/
def nonPermFailure : WalkEvent → Prop
  | .fileEntry _ (.error e) => e.permDenied = false
  | .walkErr e => e.permDenied = false
  | _ => False

theorem scanStep_core_congr (rootPath : List String) (ev : WalkEvent)
    {st st' : ScanSt} (h : st.core = st'.core) :
    (scanStep rootPath st ev).core = (scanStep rootPath st' ev).core := by
  simp only [ScanSt.core, Prod.mk.injEq] at h
  obtain ⟨h1, h2, h3, h4⟩ := h
  cases ev with
  | dirEntry rel =>
    by_cases hrel : rel = [] <;>
      simp [scanStep, hrel, ScanSt.core, h1, h2, h3, h4]
  | fileEntry rel md =>
    by_cases hrel : rel = []
    · simp [scanStep, hrel, ScanSt.core, h1, h2, h3, h4]
    · cases md with
      | error e =>
        by_cases hp : e.permDenied <;>
          simp [scanStep, hrel, hp, ScanSt.core, h1, h2, h3, h4]
      | ok len =>
        simp [scanStep, hrel, ScanSt.core, h1, h2, h3, h4]
  | walkErr e =>
    by_cases hp : e.permDenied <;>
      simp [scanStep, hp, ScanSt.core, h1, h2, h3, h4]

theorem foldl_scanStep_core_congr (rootPath : List String) :
    ∀ (events : List WalkEvent) {st st' : ScanSt}, st.core = st'.core →
      (events.foldl (scanStep rootPath) st).core =
        (events.foldl (scanStep rootPath) st').core := by
  intro events
  induction events with
  | nil => intro st st' h; exact h
  | cons ev rest ih =>
    intro st st' h
    exact ih (scanStep_core_congr rootPath ev h)

theorem nonPermFailure_step_core (rootPath : List String) (st : ScanSt)
    {ev : WalkEvent} (h : nonPermFailure ev) :
    (scanStep rootPath st ev).core = st.core := by
  cases ev with
  | dirEntry rel => exact absurd h (by simp [nonPermFailure])
  | fileEntry rel md =>
    cases md with
    | error e =>
      have hp : e.permDenied = false := h
      by_cases hrel : rel = [] <;> simp [scanStep, hrel, hp, ScanSt.core]
    | ok len => exact absurd h (by simp [nonPermFailure])
  | walkErr e =>
    have hp : e.permDenied = false := h
    simp [scanStep, hp, ScanSt.core]

/-- C5, counterexample: a non-permission-denied metadata failure ("I/O
error") leaves the Scan Report empty — it is NOT recorded, contrary to the
claim — while the scan continues and still picks up the following entry. -/
theorem C5_counterexample :
    (runScan ["r"] [.fileEntry ["a"] (.error ⟨false, "Input-output error (os error 5)"⟩),
        .fileEntry ["b"] (.ok 3)]).report = [] ∧
      (lookupNode (runScan ["r"] [.fileEntry ["a"] (.error ⟨false, "Input-output error (os error 5)"⟩),
        .fileEntry ["b"] (.ok 3)]).root ["b"]).isSome = true := by
  constructor
  · simp [runScan, scanStep]
  · simp [runScan, scanStep, Node.new, add_file_to_tree, findChild,
      calculate_dir_sizes, calcList, resum, satAdd, sort_tree, sortList,
      List.insertionSort, List.orderedInsert, lookupNode]

/-- C5, amended: a per-entry traversal failure that is not permission-denied
does not abort the scan and traversal continues with the remaining entries,
but it is silently dropped rather than recorded: the scan of the stream with
the failing event removed produces the identical tree, report, file count
and progress stores. -/
theorem C5_amended (rootPath : List String) (evs1 evs2 : List WalkEvent)
    (ev : WalkEvent) (h : nonPermFailure ev) :
    (runScan rootPath (evs1 ++ ev :: evs2)).root =
        (runScan rootPath (evs1 ++ evs2)).root ∧
      (runScan rootPath (evs1 ++ ev :: evs2)).report =
        (runScan rootPath (evs1 ++ evs2)).report ∧
      (runScan rootPath (evs1 ++ ev :: evs2)).filesScanned =
        (runScan rootPath (evs1 ++ evs2)).filesScanned ∧
      (runScan rootPath (evs1 ++ ev :: evs2)).stores =
        (runScan rootPath (evs1 ++ evs2)).stores := by
  have key :
      ((evs1 ++ ev :: evs2).foldl (scanStep rootPath)
          ⟨Node.new ((rootPath.getLast?).getD ".") rootPath true, [], 0, [], none⟩).core =
        ((evs1 ++ evs2).foldl (scanStep rootPath)
          ⟨Node.new ((rootPath.getLast?).getD ".") rootPath true, [], 0, [], none⟩).core := by
    rw [List.foldl_append, List.foldl_append, List.foldl_cons]
    exact foldl_scanStep_core_congr rootPath evs2
      (nonPermFailure_step_core rootPath _ h)
  simp only [ScanSt.core, Prod.mk.injEq] at key
  obtain ⟨h1, h2, h3, h4⟩ := key
  refine ⟨?_, ?_, ?_, ?_⟩ <;> simp only [runScan] <;>
    first
    | rw [h1]
    | rw [h2]
    | rw [h3]
    | rw [h4]

/-- Witness for `C5_amended` at a concrete non-permission walker error. -/
theorem C5_amended_witness :
    (runScan ["r"] ([.fileEntry ["a"] (.ok 7)] ++ .walkErr ⟨false, "io"⟩ :: [])).root =
        (runScan ["r"] ([.fileEntry ["a"] (.ok 7)] ++ [])).root ∧
      (runScan ["r"] ([.fileEntry ["a"] (.ok 7)] ++ .walkErr ⟨false, "io"⟩ :: [])).report =
        (runScan ["r"] ([.fileEntry ["a"] (.ok 7)] ++ [])).report ∧
      (runScan ["r"] ([.fileEntry ["a"] (.ok 7)] ++ .walkErr ⟨false, "io"⟩ :: [])).filesScanned =
        (runScan ["r"] ([.fileEntry ["a"] (.ok 7)] ++ [])).filesScanned ∧
      (runScan ["r"] ([.fileEntry ["a"] (.ok 7)] ++ .walkErr ⟨false, "io"⟩ :: [])).stores =
        (runScan ["r"] ([.fileEntry ["a"] (.ok 7)] ++ [])).stores :=
  C5_amended ["r"] [.fileEntry ["a"] (.ok 7)] [] (.walkErr ⟨false, "io"⟩) rfl

-- ===========================================================================
-- C6: permission-denied failures recorded exactly once
-- ===========================================================================

/-- The skipped entry one walk event should contribute: exactly the
permission-denied per-entry failures, with the absolute path for a metadata
failure on a known entry and no path for a walker-level failure. -/
def expectedSkip (rootPath : List String) : WalkEvent → Option SkippedEntry
  | .fileEntry rel (.error e) =>
    if e.permDenied then some ⟨some (rootPath ++ rel), e.message⟩ else none
  | .walkErr e => if e.permDenied then some ⟨none, e.message⟩ else none
  | _ => none

theorem scan_report_spec (rootPath : List String) :
    ∀ (events : List WalkEvent) (st : ScanSt),
      (∀ rel md, WalkEvent.fileEntry rel md ∈ events → rel ≠ []) →
      (events.foldl (scanStep rootPath) st).report =
        st.report ++ events.filterMap (expectedSkip rootPath) := by
  intro events
  induction events with
  | nil => intro st _; simp
  | cons ev rest ih =>
    intro st hwf
    have hwfr : ∀ rel md, WalkEvent.fileEntry rel md ∈ rest → rel ≠ [] :=
      fun rel md hm => hwf rel md (List.mem_cons_of_mem _ hm)
    rw [List.foldl_cons, ih _ hwfr]
    cases ev with
    | dirEntry rel =>
      by_cases hrel : rel = [] <;>
        simp [scanStep, hrel, expectedSkip, List.filterMap_cons]
    | fileEntry rel md =>
      have hrel : rel ≠ [] := hwf rel md (List.mem_cons_self _ _)
      cases md with
      | error e =>
        by_cases hp : e.permDenied <;>
          simp [scanStep, hrel, hp, expectedSkip, List.filterMap_cons]
      | ok len =>
        simp [scanStep, hrel, expectedSkip, List.filterMap_cons]
    | walkErr e =>
      by_cases hp : e.permDenied <;>
        simp [scanStep, hp, expectedSkip, List.filterMap_cons]

/-- C6: the scan never aborts, and its report is exactly one `SkippedEntry`
per permission-denied per-entry failure, in stream order, carrying the
entry's absolute path when the failure was a metadata error on a known entry
and no path when the walker could not resolve the entry, together with the
error message.  (The hypothesis states that no entry of the stream is the
root itself, which `jwalk` resolves before the skipped-entry logic runs.) -/
theorem C6_permission_denied_recorded_once (rootPath : List String)
    (events : List WalkEvent)
    (hwf : ∀ rel md, WalkEvent.fileEntry rel md ∈ events → rel ≠ []) :
    scan_directory_with_report_shared rootPath events =
      .ok ((runScan rootPath events).root,
        events.filterMap (expectedSkip rootPath)) := by
  have h := scan_report_spec rootPath events
    ⟨Node.new ((rootPath.getLast?).getD ".") rootPath true, [], 0, [], none⟩ hwf
  simp only [scan_directory_with_report_shared, runScan]
  simp only [runScan] at h ⊢
  rw [h]
  simp

/-- Witness for `C6_permission_denied_recorded_once` on a stream containing
one metadata permission failure, one walker-level permission failure, one
plain file and one non-permission walker error. -/
theorem C6_witness :
    scan_directory_with_report_shared ["r"]
        [.fileEntry ["a"] (.error ⟨true, "Permission denied"⟩),
         .walkErr ⟨true, "Permission denied (os error 13)"⟩,
         .fileEntry ["b"] (.ok 5),
         .walkErr ⟨false, "io"⟩] =
      .ok ((runScan ["r"]
        [.fileEntry ["a"] (.error ⟨true, "Permission denied"⟩),
         .walkErr ⟨true, "Permission denied (os error 13)"⟩,
         .fileEntry ["b"] (.ok 5),
         .walkErr ⟨false, "io"⟩]).root,
        [.fileEntry ["a"] (.error ⟨true, "Permission denied"⟩),
         .walkErr ⟨true, "Permission denied (os error 13)"⟩,
         .fileEntry ["b"] (.ok 5),
         .walkErr ⟨false, "io"⟩].filterMap (expectedSkip ["r"])) := by
  apply C6_permission_denied_recorded_once
  intro rel md hm
  simp at hm
  rcases hm with ⟨rfl, _⟩ | ⟨rfl, _⟩ <;> simp

-- ===========================================================================
-- C9: duplicate insertions accumulate with saturating arithmetic
-- ===========================================================================

/-- Size of the node denoted by a relative path (`0` when absent). -/
def sizeAt (t : Node) (p : List String) : Nat :=
  ((lookupNode t p).map Node.size).getD 0

theorem add_file_name : ∀ (p : List String) (t : Node) (sz : Nat),
    (add_file_to_tree t p sz).name = t.name
  | [], t, sz => rfl
  | [_], t, sz => by
    simp only [add_file_to_tree]
    cases findChild t.children _ <;> simp
  | _ :: _ :: _, t, sz => by
    simp only [add_file_to_tree]
    cases findChild t.children _ <;> simp

theorem add_file_lookup : ∀ (p : List String) (t : Node) (sz : Nat), p ≠ [] →
    ∃ m, lookupNode (add_file_to_tree t p sz) p = some m ∧
      m.is_dir = false ∧
      m.size = satAdd (sizeAt t p) sz ∧
      (∀ m0, lookupNode t p = some m0 →
        m.children = m0.children ∧ m.name = m0.name ∧ m.path = m0.path)
  | [], _, _, hp => absurd rfl hp
  | [c], t, sz, _ => by
    cases hfc : findChild t.children c with
    | some child =>
      refine ⟨Node.mk child.name (satAdd child.size sz) false child.children child.path,
        ?_, rfl, ?_, ?_⟩
      · simp only [add_file_to_tree, hfc, lookupNode, Node.children_mk]
        rw [findChild_setChild_self hfc (by simp [findChild_name hfc])]
      · simp [sizeAt, lookupNode, hfc]
      · intro m0 hm0
        simp [lookupNode, hfc] at hm0
        simp [← hm0]
    | none =>
      refine ⟨Node.mk c (satAdd 0 sz) false [] (t.path ++ [c]), ?_, rfl, ?_, ?_⟩
      · simp only [add_file_to_tree, hfc, lookupNode, Node.new, Node.children_mk]
        rw [findChild_append_none _ hfc (by simp)]
        simp
      · simp [sizeAt, lookupNode, hfc, Node.new]
      · intro m0 hm0
        simp [lookupNode, hfc] at hm0
  | c :: c2 :: rest, t, sz, _ => by
    cases hfc : findChild t.children c with
    | some child =>
      obtain ⟨m, hm, hdir, hsz, hpres⟩ :=
        add_file_lookup (c2 :: rest)
          (Node.mk child.name child.size true child.children child.path) sz (by simp)
      refine ⟨m, ?_, hdir, ?_, ?_⟩
      · simp only [add_file_to_tree, hfc, lookupNode, Node.children_mk]
        rw [findChild_setChild_self hfc
          (by simp [add_file_name, findChild_name hfc])]
        have : lookupNode (add_file_to_tree
            (Node.mk child.name child.size true child.children child.path)
            (c2 :: rest) sz) (c2 :: rest) = some m := hm
        exact this
      · rw [hsz]
        have : sizeAt (Node.mk child.name child.size true child.children child.path)
            (c2 :: rest) = sizeAt t (c :: c2 :: rest) := by
          simp [sizeAt, lookupNode, hfc]
        rw [this]
      · intro m0 hm0
        apply hpres
        simp [lookupNode, hfc] at hm0 ⊢
        exact hm0
    | none =>
      obtain ⟨m, hm, hdir, hsz, hpres⟩ :=
        add_file_lookup (c2 :: rest)
          (Node.mk c 0 true [] (t.path ++ [c])) sz (by simp)
      refine ⟨m, ?_, hdir, ?_, ?_⟩
      · simp only [add_file_to_tree, hfc, lookupNode, Node.new, Node.children_mk]
        rw [findChild_append_none _ hfc (by simp [add_file_name])]
        exact hm
      · rw [hsz]
        have h1 : sizeAt (Node.mk c 0 true [] (t.path ++ [c])) (c2 :: rest) = 0 := by
          simp [sizeAt, lookupNode, findChild]
        have h2 : sizeAt t (c :: c2 :: rest) = 0 := by
          simp [sizeAt, lookupNode, hfc]
        rw [h1, h2]
      · intro m0 hm0
        simp [lookupNode, hfc] at hm0

theorem fold_add_file (p : List String) (hp : p ≠ []) :
    ∀ (szs : List Nat) (t : Node), szs ≠ [] →
      ∃ m, lookupNode (szs.foldl (fun acc sz => add_file_to_tree acc p sz) t) p =
          some m ∧
        m.is_dir = false ∧
        m.size = min (sizeAt t p + szs.sum) U64MAX := by
  intro szs
  induction szs with
  | nil => intro t h; exact absurd rfl h
  | cons x rest ih =>
    intro t _
    cases rest with
    | nil =>
      obtain ⟨m, hm, hdir, hsz, _⟩ := add_file_lookup p t x hp
      exact ⟨m, by simpa using hm, hdir, by simpa [satAdd] using hsz⟩
    | cons y rest' =>
      obtain ⟨m, hm, hdir, hsz⟩ := ih (add_file_to_tree t p x) (by simp)
      refine ⟨m, by simpa using hm, hdir, ?_⟩
      obtain ⟨m1, hm1, _, hsz1, _⟩ := add_file_lookup p t x hp
      have hs : sizeAt (add_file_to_tree t p x) p = satAdd (sizeAt t p) x := by
        simp [sizeAt, hm1, hsz1]
      rw [hsz, hs]
      simp only [satAdd, List.sum_cons]
      omega

/-- C9: when the same file path is inserted more than once, the terminal
node's size is accumulated, not overwritten: after all insertions it equals
the saturating `u64` sum of every reported length (no overflow), and the
node is marked `is_dir = false`. -/
theorem C9_duplicate_insertions_accumulate (t : Node) (p : List String)
    (szs : List Nat) (hp : p ≠ []) (h0 : lookupNode t p = none)
    (hdup : 2 ≤ szs.length) :
    ∃ m, lookupNode (szs.foldl (fun acc sz => add_file_to_tree acc p sz) t) p =
        some m ∧
      m.is_dir = false ∧
      m.size = min szs.sum U64MAX := by
  obtain ⟨m, hm, hdir, hsz⟩ := fold_add_file p hp szs t
    (by intro h; rw [h] at hdup; simp at hdup)
  refine ⟨m, hm, hdir, ?_⟩
  rw [hsz]
  simp [sizeAt, h0]

/-- Witness for `C9_duplicate_insertions_accumulate`: inserting `"a"` twice
(3 bytes, then 5) into a bare root gives a file node of size 8. -/
theorem C9_witness :
    ∃ m, lookupNode ([3, 5].foldl
        (fun acc sz => add_file_to_tree acc ["a"] sz)
        (Node.mk "r" 0 true [] ["r"])) ["a"] = some m ∧
      m.is_dir = false ∧
      m.size = min ([3, 5] : List Nat).sum U64MAX :=
  C9_duplicate_insertions_accumulate (Node.mk "r" 0 true [] ["r"]) ["a"] [3, 5]
    (by simp) (by simp [lookupNode, findChild]) (by simp)

-- ===========================================================================
-- C2: children sorted by size descending
-- ===========================================================================

instance : IsTotal Node nodeLe :=
  ⟨fun a b => by simp [nodeLe]; omega⟩

instance : IsTrans Node nodeLe :=
  ⟨fun a b c hab hbc => by simp [nodeLe] at *; omega⟩

theorem sort_tree_size (n : Node) : (sort_tree n).size = n.size := by
  cases n; simp [sort_tree]

theorem sortList_eq_map : ∀ l : List Node, sortList l = l.map sort_tree
  | [] => by simp [sortList]
  | c :: rest => by simp [sortList, sortList_eq_map rest]

theorem descBySizes_of_sorted : ∀ l : List Node,
    List.Sorted nodeLe l → descBySizes l = true
  | [] , _ => rfl
  | [_], _ => rfl
  | a :: b :: rest, h => by
    rw [List.sorted_cons] at h
    have hab : nodeLe a b := h.1 b (by simp)
    simp only [descBySizes, Bool.and_eq_true]
    exact ⟨by simpa [nodeLe] using hab, descBySizes_of_sorted (b :: rest) h.2⟩

theorem descBySizes_map_sort_tree : ∀ l : List Node,
    descBySizes (l.map sort_tree) = descBySizes l
  | [] => rfl
  | [a] => rfl
  | a :: b :: rest => by
    simp only [List.map_cons, descBySizes, sort_tree_size]
    rw [show (sort_tree b :: rest.map sort_tree) = (b :: rest).map sort_tree from rfl,
      descBySizes_map_sort_tree (b :: rest)]

theorem sortedDescL_all : ∀ l : List Node,
    sortedDescL l = true ↔ ∀ c ∈ l, sortedDescTree c = true
  | [] => by simp [sortedDescL]
  | c :: rest => by
    simp [sortedDescL, sortedDescL_all rest]

theorem sorted_sort_tree_bounded :
    ∀ (k : Nat) (n : Node), sizeOf n ≤ k → sortedDescTree (sort_tree n) = true := by
  intro k
  induction k with
  | zero =>
    intro n h
    cases n
    simp at h
  | succ k ih =>
    intro n h
    cases n with
    | mk nm sz d cs p =>
      simp only [sort_tree, sortedDescTree, sortList_eq_map, Bool.and_eq_true]
      constructor
      · rw [descBySizes_map_sort_tree]
        exact descBySizes_of_sorted _ (List.sorted_insertionSort nodeLe cs)
      · rw [sortedDescL_all]
        intro c hc
        rcases List.mem_map.1 hc with ⟨c0, hc0, rfl⟩
        have hmem : c0 ∈ cs := (List.mem_insertionSort nodeLe).1 hc0
        have h1 : sizeOf c0 < sizeOf cs := List.sizeOf_lt_of_mem hmem
        have h2 : sizeOf (Node.mk nm sz d cs p) = 1 + sizeOf nm + sizeOf sz +
            sizeOf d + sizeOf cs + sizeOf p := by simp
        exact ih c0 (by omega)

/-- C2: in every tree returned by a completed scan, the children of every
node are sorted by `size` descending: adjacent pairs `(a, b)` satisfy
`b.size ≤ a.size`. -/
theorem C2_children_sorted_descending (rootPath : List String)
    (events : List WalkEvent) :
    sortedDescTree ((runScan rootPath events).root) = true := by
  simp only [runScan]
  exact sorted_sort_tree_bounded (sizeOf (calculate_dir_sizes
    ((events.foldl (scanStep rootPath)
      ⟨Node.new ((rootPath.getLast?).getD ".") rootPath true, [], 0, [], none⟩).root))) _
    (Nat.le_refl _)

-- ===========================================================================
-- C1: the aggregation invariant
-- ===========================================================================

/-- C1, counterexample: the claim fails on two counts at this concrete event
stream.  The root's children sizes add up to `2 ^ 64`, so the root's
saturated size is not their exact sum; and the directory node at
`d/e` — shadowed after a file entry arrives for the path `d` itself — is
never re-aggregated by `calculate_dir_sizes` (which does not descend below
`is_dir = false` nodes), keeping size `0` although it has a 5-byte child. -/
theorem C1_counterexample :
    dirSizesExactB ((runScan ["r"]
      [.fileEntry ["a"] (.ok U64MAX), .fileEntry ["b"] (.ok 1),
       .dirEntry ["d"], .dirEntry ["d", "e"], .fileEntry ["d", "e", "y"] (.ok 5),
       .fileEntry ["d"] (.ok 7)]).root) = false := by
  simp [runScan, scanStep, add_file_to_tree, ensure_dir_path, findChild,
    setChild, Node.new, satAdd, U64MAX, calculate_dir_sizes, calcList, resum,
    sort_tree, sortList, List.insertionSort, List.orderedInsert, nodeLe,
    dirSizesExactB, dirSizesExactL, sumSizes]

theorem calcList_eq_map : ∀ l : List Node,
    calcList l = l.map calculate_dir_sizes
  | [] => by simp [calcList]
  | c :: rest => by simp [calcList, calcList_eq_map rest]

theorem calc_dir (nm : String) (sz : Nat) (cs : List Node) (q0 : List String) :
    calculate_dir_sizes (Node.mk nm sz true cs q0) =
      Node.mk nm (resum (cs.map calculate_dir_sizes)) true
        (cs.map calculate_dir_sizes) q0 := by
  simp [calculate_dir_sizes, calcList_eq_map]

theorem calc_nondir (nm : String) (sz : Nat) (cs : List Node) (q0 : List String) :
    calculate_dir_sizes (Node.mk nm sz false cs q0) = Node.mk nm sz false cs q0 := by
  simp [calculate_dir_sizes]

theorem aggInvariantL_all : ∀ l : List Node,
    aggInvariantL l = true ↔ ∀ c ∈ l, aggInvariant c = true
  | [] => by simp [aggInvariantL]
  | c :: rest => by simp [aggInvariantL, aggInvariantL_all rest]

theorem sumSizes_eq_map_sum : ∀ l : List Node,
    sumSizes l = (l.map Node.size).sum
  | [] => rfl
  | c :: rest => by simp [sumSizes, sumSizes_eq_map_sum rest]

theorem agg_calculate_dir_sizes_bounded :
    ∀ (k : Nat) (n : Node), sizeOf n ≤ k →
      aggInvariant (calculate_dir_sizes n) = true := by
  intro k
  induction k with
  | zero =>
    intro n h
    cases n
    simp at h
  | succ k ih =>
    intro n h
    cases n with
    | mk nm sz d cs p =>
      cases d with
      | false => simp [calculate_dir_sizes, aggInvariant]
      | true =>
        simp only [calculate_dir_sizes, if_pos, aggInvariant, calcList_eq_map,
          Bool.and_eq_true, beq_iff_eq]
        refine ⟨trivial, ?_⟩
        rw [aggInvariantL_all]
        intro c hc
        rcases List.mem_map.1 hc with ⟨c0, hc0, rfl⟩
        have h1 : sizeOf c0 < sizeOf cs := List.sizeOf_lt_of_mem hc0
        have h2 : sizeOf cs < sizeOf (Node.mk nm sz true cs p) := by
          simp; omega
        exact ih c0 (by omega)

theorem sumSizes_map_sort_tree : ∀ l : List Node,
    sumSizes (l.map sort_tree) = sumSizes l
  | [] => rfl
  | c :: rest => by
    simp [sumSizes, sort_tree_size, sumSizes_map_sort_tree rest]

theorem resum_sort_children (cs : List Node) :
    resum ((cs.insertionSort nodeLe).map sort_tree) = resum cs := by
  rw [resum_eq_min, resum_eq_min, sumSizes_map_sort_tree,
    sumSizes_eq_map_sum, sumSizes_eq_map_sum]
  rw [((List.perm_insertionSort nodeLe cs).map Node.size).sum_eq]

theorem agg_sort_tree_bounded :
    ∀ (k : Nat) (n : Node), sizeOf n ≤ k → aggInvariant n = true →
      aggInvariant (sort_tree n) = true := by
  intro k
  induction k with
  | zero =>
    intro n h
    cases n
    simp at h
  | succ k ih =>
    intro n h hagg
    cases n with
    | mk nm sz d cs p =>
      cases d with
      | false => simp [sort_tree, sortList_eq_map, aggInvariant]
      | true =>
        simp only [aggInvariant, if_pos, Bool.and_eq_true, beq_iff_eq] at hagg
        simp only [sort_tree, sortList_eq_map, aggInvariant, if_pos,
          Bool.and_eq_true, beq_iff_eq]
        refine ⟨by rw [resum_sort_children]; exact hagg.1, ?_⟩
        rw [aggInvariantL_all]
        intro c hc
        rcases List.mem_map.1 hc with ⟨c0, hc0, rfl⟩
        have hmem : c0 ∈ cs := (List.mem_insertionSort nodeLe).1 hc0
        have h1 : sizeOf c0 < sizeOf cs := List.sizeOf_lt_of_mem hmem
        have h2 : sizeOf cs < sizeOf (Node.mk nm sz true cs p) := by
          simp; omega
        exact ih c0 (by omega)
          ((aggInvariantL_all cs).1 hagg.2 c0 hmem)

theorem fileSizesL_eq_flatMap : ∀ l : List Node,
    fileSizesL l = l.flatMap fileSizes
  | [] => by simp [fileSizesL]
  | c :: rest => by simp [fileSizesL, fileSizesL_eq_flatMap rest]

theorem fileSizesL_congr (cs : List Node)
    (h : ∀ c ∈ cs, fileSizes (calculate_dir_sizes c) = fileSizes c) :
    fileSizesL (calcList cs) = fileSizesL cs := by
  induction cs with
  | nil => rfl
  | cons c rest ih =>
    simp only [calcList, fileSizesL]
    rw [h c (by simp), ih (fun c hc => h c (List.mem_cons_of_mem _ hc))]

theorem fileSizes_calculate_dir_sizes_bounded :
    ∀ (k : Nat) (n : Node), sizeOf n ≤ k →
      fileSizes (calculate_dir_sizes n) = fileSizes n := by
  intro k
  induction k with
  | zero =>
    intro n h
    cases n
    simp at h
  | succ k ih =>
    intro n h
    cases n with
    | mk nm sz d cs p =>
      cases d with
      | false => simp [calculate_dir_sizes]
      | true =>
        simp only [calculate_dir_sizes, if_pos, fileSizes]
        rw [fileSizesL_congr]
        intro c hc
        have h1 : sizeOf c < sizeOf cs := List.sizeOf_lt_of_mem hc
        have h2 : sizeOf cs < sizeOf (Node.mk nm sz true cs p) := by
          simp; omega
        exact ih c (by omega)

theorem fileSizes_sort_tree_bounded :
    ∀ (k : Nat) (n : Node), sizeOf n ≤ k →
      List.Perm (fileSizes (sort_tree n)) (fileSizes n) := by
  intro k
  induction k with
  | zero =>
    intro n h
    cases n
    simp at h
  | succ k ih =>
    intro n h
    cases n with
    | mk nm sz d cs p =>
      simp only [sort_tree, sortList_eq_map, fileSizes]
      apply List.Perm.append_left
      rw [fileSizesL_eq_flatMap, fileSizesL_eq_flatMap, List.flatMap_map]
      have hstep : ∀ c0 ∈ cs.insertionSort nodeLe,
          List.Perm (fileSizes (sort_tree c0)) (fileSizes c0) := by
        intro c0 hc0
        have hmem : c0 ∈ cs := (List.mem_insertionSort nodeLe).1 hc0
        have h1 : sizeOf c0 < sizeOf cs := List.sizeOf_lt_of_mem hmem
        have h2 : sizeOf cs < sizeOf (Node.mk nm sz d cs p) := by
          simp; omega
        exact ih c0 (by omega)
      exact (List.Perm.flatMap_left _ hstep).trans
        ((List.perm_insertionSort nodeLe cs).flatMap_right _)

/-- C1, amended: in every tree returned by a completed scan, every directory
node reachable from the root through directory nodes has `size` equal to the
SATURATING `u64` sum of its children's sizes (the exact sum whenever that
sum fits in a `u64`); directory nodes shadowed below a node marked
`is_dir = false` are not re-aggregated; and file nodes keep their
accumulated sizes — the multiset of `(path, size)` pairs of `is_dir = false`
nodes is exactly that of the tree as built before aggregation and sorting. -/
theorem C1_amended (rootPath : List String) (events : List WalkEvent) :
    aggInvariant ((runScan rootPath events).root) = true ∧
      (↑(fileSizes ((runScan rootPath events).root)) :
          Multiset (List String × Nat)) =
        ↑(fileSizes (builtRoot rootPath events)) := by
  constructor
  · simp only [runScan]
    apply agg_sort_tree_bounded (sizeOf (calculate_dir_sizes
      ((events.foldl (scanStep rootPath)
        ⟨Node.new ((rootPath.getLast?).getD ".") rootPath true, [], 0, [], none⟩).root)))
      _ (Nat.le_refl _)
    exact agg_calculate_dir_sizes_bounded _ _ (Nat.le_refl _)
  · simp only [runScan, builtRoot]
    rw [Multiset.coe_eq_coe]
    refine (fileSizes_sort_tree_bounded
      (sizeOf (calculate_dir_sizes ((events.foldl (scanStep rootPath)
        ⟨Node.new ((rootPath.getLast?).getD ".") rootPath true, [], 0, [], none⟩).root)))
      _ (Nat.le_refl _)).trans ?_
    rw [fileSizes_calculate_dir_sizes_bounded _ _ (Nat.le_refl _)]

-- ===========================================================================
-- C10: a file entry shadowing an existing directory node
-- ===========================================================================

theorem calc_name (n : Node) : (calculate_dir_sizes n).name = n.name := by
  cases n with
  | mk nm sz d cs p => cases d <;> simp [calculate_dir_sizes]

theorem findChild_map {f : Node → Node} (hf : ∀ c, (f c).name = c.name) :
    ∀ (cs : List Node) (nm : String),
      findChild (cs.map f) nm = (findChild cs nm).map f
  | [], _ => rfl
  | c :: rest, nm => by
    by_cases hc : c.name = nm
    · simp [findChild, hf, hc]
    · simp [findChild, hf, hc, findChild_map hf rest nm]

theorem map_setChild {f : Node → Node} (hf : ∀ c, (f c).name = c.name) :
    ∀ (cs : List Node) (nm : String) (v : Node),
      (setChild cs nm v).map f = setChild (cs.map f) nm (f v)
  | [], _, _ => rfl
  | c :: rest, nm, v => by
    by_cases hc : c.name = nm
    · simp [setChild, hf, hc]
    · simp [setChild, hf, hc, map_setChild hf rest nm v]

theorem sumSizes_setChild : ∀ {cs : List Node} {nm : String} {w : Node}
    (v : Node), findChild cs nm = some w →
    sumSizes (setChild cs nm v) + w.size = sumSizes cs + v.size := by
  intro cs
  induction cs with
  | nil => intro nm w v h; simp [findChild] at h
  | cons c rest ih =>
    intro nm w v h
    by_cases hc : c.name = nm
    · simp [findChild, hc] at h
      simp [setChild, hc, sumSizes, ← h]
      omega
    · simp [findChild, hc] at h
      have hrec := ih v h
      simp [setChild, hc, sumSizes]
      omega

theorem lookup_calc_nondir : ∀ (p : List String) (n X : Node),
    lookupNode n p = some X → X.is_dir = false →
    lookupNode (calculate_dir_sizes n) p = some X
  | [], n, X, h, hdir => by
    simp [lookupNode] at h
    subst h
    cases n with
    | mk nm sz d cs q =>
      simp at hdir
      simp [calculate_dir_sizes, hdir, lookupNode]
  | c :: rest, n, X, h, hdir => by
    cases n with
    | mk nm sz d cs q =>
      cases d with
      | false => simpa [calculate_dir_sizes, lookupNode] using h
      | true =>
        simp only [lookupNode, Node.children_mk] at h
        cases hfc : findChild cs c with
        | none => rw [hfc] at h; simp at h
        | some child =>
          rw [hfc] at h
          simp at h
          simp only [calculate_dir_sizes, if_pos, calcList_eq_map, lookupNode,
            Node.children_mk]
          rw [findChild_map calc_name, hfc]
          exact lookup_calc_nondir rest child X h hdir

theorem pruneAt_name (n : Node) (p : List String) :
    (pruneAt n p).name = n.name := by
  cases p with
  | nil => cases n; simp [pruneAt]
  | cons c rest =>
    cases n with
    | mk nm sz d cs q =>
      simp only [pruneAt, Node.children_mk]
      cases hfc : findChild cs c <;> simp [hfc]

theorem pruneAt_size (n : Node) (p : List String) :
    (pruneAt n p).size = n.size := by
  cases p with
  | nil => cases n; simp [pruneAt]
  | cons c rest =>
    cases n with
    | mk nm sz d cs q =>
      simp only [pruneAt, Node.children_mk]
      cases hfc : findChild cs c <;> simp [hfc]

theorem lookup_pruneAt_size : ∀ (q : List String) (n : Node) (p s : List String),
    q ++ s = p →
    ((lookupNode (pruneAt n p) q).map Node.size) =
      ((lookupNode n q).map Node.size)
  | [], n, p, s, _ => by
    simp [lookupNode, pruneAt_size]
  | c :: q', n, p, s, hqs => by
    cases p with
    | nil => simp at hqs
    | cons c0 rest =>
      rw [List.cons_append] at hqs
      injection hqs with hc0 hrest
      subst hc0
      cases n with
      | mk nm sz d cs q0 =>
        simp only [pruneAt, Node.children_mk]
        cases hfc : findChild cs c with
        | none => rfl
        | some child =>
          simp only [lookupNode, Node.children_mk]
          rw [findChild_setChild_self hfc (by simp [pruneAt_name, findChild_name hfc]),
            hfc]
          exact lookup_pruneAt_size q' child rest s hrest

theorem calc_prune_sizes : ∀ (p : List String) (n X : Node),
    lookupNode n p = some X → X.is_dir = false →
    ∀ (q s : List String), q ++ s = p →
    ((lookupNode (calculate_dir_sizes (pruneAt n p)) q).map Node.size) =
      ((lookupNode (calculate_dir_sizes n) q).map Node.size)
  | [], n, X, h, hdir, q, s, hqs => by
    obtain ⟨rfl, rfl⟩ := List.append_eq_nil.1 hqs
    simp [lookupNode] at h
    subst h
    cases n with
    | mk nm sz d cs q0 =>
      simp at hdir
      simp [calculate_dir_sizes, hdir, pruneAt, lookupNode]
  | c :: rest, n, X, h, hdir, q, s, hqs => by
    cases n with
    | mk nm sz d cs q0 =>
      cases d with
      | false =>
        have hpr : (pruneAt (Node.mk nm sz false cs q0) (c :: rest)).is_dir = false := by
          simp only [pruneAt, Node.children_mk]
          cases hfc2 : findChild cs c <;> simp [hfc2]
        have h1 : calculate_dir_sizes (pruneAt (Node.mk nm sz false cs q0) (c :: rest)) =
            pruneAt (Node.mk nm sz false cs q0) (c :: rest) := by
          generalize hg : pruneAt (Node.mk nm sz false cs q0) (c :: rest) = m at hpr ⊢
          cases m with
          | mk nm2 sz2 d2 cs2 p2 =>
            simp at hpr
            simp [calculate_dir_sizes, hpr]
        rw [h1]
        simp only [calculate_dir_sizes]
        exact lookup_pruneAt_size q _ (c :: rest) s hqs
      | true =>
        simp only [lookupNode, Node.children_mk] at h
        cases hfc : findChild cs c with
        | none => rw [hfc] at h; simp at h
        | some child =>
          rw [hfc] at h
          simp only at h
          simp only [pruneAt, Node.children_mk, hfc]
          cases q with
          | nil =>
            have hszq : (calculate_dir_sizes (pruneAt child rest)).size =
                (calculate_dir_sizes child).size := by
              have hrec := calc_prune_sizes rest child X h hdir [] rest rfl
              simpa [lookupNode] using hrec
            have hw : findChild (cs.map calculate_dir_sizes) c =
                some (calculate_dir_sizes child) := by
              rw [findChild_map calc_name, hfc]; rfl
            have hsum := sumSizes_setChild
              (calculate_dir_sizes (pruneAt child rest)) hw
            have hsum2 : sumSizes (setChild (cs.map calculate_dir_sizes) c
                (calculate_dir_sizes (pruneAt child rest))) =
                sumSizes (cs.map calculate_dir_sizes) := by omega
            simp only [Node.name_mk, Node.size_mk, Node.is_dir_mk, Node.path_mk]
            rw [calc_dir, calc_dir]
            simp only [lookupNode, Option.map_some, Node.size_mk]
            rw [map_setChild calc_name, resum_eq_min, resum_eq_min, hsum2]
            simp
          | cons c1 q' =>
            rw [List.cons_append] at hqs
            injection hqs with hc1 hq's
            have hc1' := hc1.symm
            subst hc1'
            simp only [Node.name_mk, Node.size_mk, Node.is_dir_mk, Node.path_mk]
            rw [calc_dir, calc_dir]
            simp only [lookupNode, Node.children_mk]
            rw [map_setChild calc_name]
            have hw : findChild (cs.map calculate_dir_sizes) c =
                some (calculate_dir_sizes child) := by
              rw [findChild_map calc_name, hfc]; rfl
            rw [findChild_setChild_self hw (by simp [calc_name, pruneAt_name,
              findChild_name hfc]), hw]
            exact calc_prune_sizes rest child X h hdir q' s hq's

/-- C10: when a path already denotes a directory node with children and a
file entry is inserted at that same path, the node's `is_dir` becomes
`false`, its children are retained, its size is accumulated; the aggregation
pass then leaves that node exactly as is (returning its own accumulated
size) and excludes the retained children's sizes from that node's and every
ancestor's aggregated total — pruning those children does not change any
aggregated size along the path. -/
theorem C10_file_shadows_directory (t : Node) (p : List String) (len : Nat)
    (D : Node) (h1 : lookupNode t p = some D) (h2 : D.is_dir = true)
    (h3 : p ≠ []) :
    ∃ D', lookupNode (add_file_to_tree t p len) p = some D' ∧
      D'.is_dir = false ∧
      D'.children = D.children ∧
      D'.size = satAdd D.size len ∧
      lookupNode (calculate_dir_sizes (add_file_to_tree t p len)) p = some D' ∧
      (∀ q s : List String, q ++ s = p →
        ((lookupNode (calculate_dir_sizes (add_file_to_tree t p len)) q).map
            Node.size) =
          ((lookupNode (calculate_dir_sizes
              (pruneAt (add_file_to_tree t p len) p)) q).map Node.size)) := by
  obtain ⟨D', hD', hdir, hsz, hpres⟩ := add_file_lookup p t len h3
  obtain ⟨hch, _, _⟩ := hpres D h1
  refine ⟨D', hD', hdir, hch, ?_, ?_, ?_⟩
  · rw [hsz]
    simp [sizeAt, h1]
  · exact lookup_calc_nondir p _ D' hD' hdir
  · intro q s hqs
    exact (calc_prune_sizes p _ D' hD' hdir q s hqs).symm

/-- Witness for `C10_file_shadows_directory`: root `r` holds directory `d`
(one 5-byte file inside) and file `a`; inserting a 7-byte file entry at path
`d` shadows the directory. -/
theorem C10_witness :
    ∃ D', lookupNode (add_file_to_tree
        (Node.mk "r" 57 true
          [Node.mk "d" 0 true [Node.mk "x" 5 false [] ["r", "d", "x"]] ["r", "d"],
           Node.mk "a" 52 false [] ["r", "a"]] ["r"]) ["d"] 7) ["d"] = some D' ∧
      D'.is_dir = false ∧
      D'.children = [Node.mk "x" 5 false [] ["r", "d", "x"]] ∧
      D'.size = satAdd 0 7 ∧
      lookupNode (calculate_dir_sizes (add_file_to_tree
        (Node.mk "r" 57 true
          [Node.mk "d" 0 true [Node.mk "x" 5 false [] ["r", "d", "x"]] ["r", "d"],
           Node.mk "a" 52 false [] ["r", "a"]] ["r"]) ["d"] 7)) ["d"] = some D' ∧
      (∀ q s : List String, q ++ s = ["d"] →
        ((lookupNode (calculate_dir_sizes (add_file_to_tree
            (Node.mk "r" 57 true
              [Node.mk "d" 0 true [Node.mk "x" 5 false [] ["r", "d", "x"]] ["r", "d"],
               Node.mk "a" 52 false [] ["r", "a"]] ["r"]) ["d"] 7)) q).map
            Node.size) =
          ((lookupNode (calculate_dir_sizes (pruneAt (add_file_to_tree
            (Node.mk "r" 57 true
              [Node.mk "d" 0 true [Node.mk "x" 5 false [] ["r", "d", "x"]] ["r", "d"],
               Node.mk "a" 52 false [] ["r", "a"]] ["r"]) ["d"] 7) ["d"])) q).map
            Node.size)) :=
  C10_file_shadows_directory
    (Node.mk "r" 57 true
      [Node.mk "d" 0 true [Node.mk "x" 5 false [] ["r", "d", "x"]] ["r", "d"],
       Node.mk "a" 52 false [] ["r", "a"]] ["r"]) ["d"] 7
    (Node.mk "d" 0 true [Node.mk "x" 5 false [] ["r", "d", "x"]] ["r", "d"])
    (by simp [lookupNode, findChild]) rfl (by simp)

-- ===========================================================================
-- Deletion machinery (C3, C7)
-- ===========================================================================

theorem lookup_append : ∀ (p : List String) (n : Node) (r : List String),
    lookupNode n (p ++ r) = (lookupNode n p).bind (fun m => lookupNode m r)
  | [], n, r => by simp [lookupNode]
  | c :: p', n, r => by
    simp only [List.cons_append, lookupNode]
    cases findChild n.children c with
    | none => simp
    | some child => simp [lookup_append p' child r]

theorem relativeTo_append : ∀ (b r : List String),
    relativeTo b (b ++ r) = some r
  | [], r => rfl
  | x :: b', r => by simp [relativeTo, relativeTo_append b' r]

theorem delete_node_eq (root : Node) (target rel : List String)
    (h : relativeTo root.path target = some rel) (hne : rel ≠ []) :
    delete_node root target = deleteRel root rel := by
  cases rel with
  | nil => exact absurd rfl hne
  | cons c r => simp [delete_node, h]

theorem deleteRel_cons (n : Node) (c0 : String) (t : List String) (ht : t ≠ []) :
    deleteRel n (c0 :: t) =
      (match findChild n.children c0 with
      | some child =>
        (match deleteRel child t with
        | .ok child2 =>
          .ok (Node.mk n.name (resum (setChild n.children c0 child2)) n.is_dir
            (setChild n.children c0 child2) n.path)
        | .error e => .error e)
      | none => .error "node not found") := by
  cases t with
  | nil => exact absurd rfl ht
  | cons c2 rest => rfl

theorem dirSizesExactL_all : ∀ l : List Node,
    dirSizesExactL l = true ↔ ∀ c ∈ l, dirSizesExactB c = true
  | [] => by simp [dirSizesExactL]
  | c :: rest => by simp [dirSizesExactL, dirSizesExactL_all rest]

theorem sizesBoundedL_all : ∀ l : List Node,
    sizesBoundedL l = true ↔ ∀ c ∈ l, sizesBoundedB c = true
  | [] => by simp [sizesBoundedL]
  | c :: rest => by simp [sizesBoundedL, sizesBoundedL_all rest]

theorem dirSizesExactB_unfold (n : Node) (h : dirSizesExactB n = true) :
    (n.is_dir = true → n.size = sumSizes n.children) ∧
      ∀ c ∈ n.children, dirSizesExactB c = true := by
  cases n with
  | mk nm sz d cs p =>
    simp only [dirSizesExactB, Bool.and_eq_true, Bool.or_eq_true, Bool.not_eq_true',
      beq_iff_eq] at h
    refine ⟨?_, (dirSizesExactL_all cs).1 h.2⟩
    intro hd
    simp at hd
    rcases h.1 with h1 | h1
    · simp [hd] at h1
    · simpa using h1

theorem sizesBoundedB_unfold (n : Node) (h : sizesBoundedB n = true) :
    n.size ≤ U64MAX ∧ ∀ c ∈ n.children, sizesBoundedB c = true := by
  cases n with
  | mk nm sz d cs p =>
    simp only [sizesBoundedB, Bool.and_eq_true, decide_eq_true_eq] at h
    exact ⟨by simpa using h.1, (sizesBoundedL_all cs).1 h.2⟩

theorem sumSizes_removeChild : ∀ {cs : List Node} {nm : String} {w : Node},
    findChild cs nm = some w →
    sumSizes (removeChild cs nm) + w.size = sumSizes cs := by
  intro cs
  induction cs with
  | nil => intro nm w h; simp [findChild] at h
  | cons c rest ih =>
    intro nm w h
    by_cases hc : c.name = nm
    · simp [findChild, hc] at h
      simp [removeChild, hc, sumSizes, ← h]
      omega
    · simp [findChild, hc] at h
      have hrec := ih h
      simp [removeChild, hc, sumSizes]
      omega

theorem chainAllDirs_cons {n : Node} {c : String} {rest : List String}
    (h : chainAllDirs n (c :: rest) = true) :
    n.is_dir = true ∧
      (∀ child, findChild n.children c = some child →
        chainAllDirs child rest = true) := by
  simp only [chainAllDirs, Bool.and_eq_true] at h
  refine ⟨h.1, ?_⟩
  intro child hc
  have := h.2
  rw [hc] at this
  exact this

/-- Central lemma for the spec-modelled deletion: deleting the node named
`c` below the chain `rel` succeeds, removes exactly that node, rebuilds the
chain with every node's size reduced by the removed node's size (sizes being
exact and bounded), and leaves every subtree diverging from the chain
untouched. -/
theorem deleteRel_spec : ∀ (rel : List String) (n : Node) (c : String) (X : Node),
    dirSizesExactB n = true → sizesBoundedB n = true →
    chainAllDirs n rel = true →
    lookupNode n (rel ++ [c]) = some X →
    ∃ n', deleteRel n (rel ++ [c]) = .ok n' ∧
      n'.name = n.name ∧ n'.path = n.path ∧ n'.is_dir = n.is_dir ∧
      n'.size + X.size = n.size ∧
      (∀ q s, q ++ s = rel →
        ∀ A, lookupNode n q = some A →
          ∃ A', lookupNode n' q = some A' ∧ A'.name = A.name ∧
            A'.path = A.path ∧ A'.is_dir = A.is_dir ∧
            A'.size + X.size = A.size) ∧
      (∃ P P', lookupNode n rel = some P ∧ lookupNode n' rel = some P' ∧
        P'.children = removeChild P.children c) ∧
      (∀ c2 r, c2 ≠ c →
        lookupNode n' (rel ++ c2 :: r) = lookupNode n (rel ++ c2 :: r))
  | [], n, c, X, hEx, hBd, hCh, hLk => by
    have hdir : n.is_dir = true := by
      simpa [chainAllDirs] using hCh
    have hfc : findChild n.children c = some X := by
      simp only [List.nil_append, lookupNode] at hLk
      cases hfc' : findChild n.children c with
      | none => rw [hfc'] at hLk; simp at hLk
      | some w =>
        rw [hfc'] at hLk
        simp only [lookupNode] at hLk
        exact hLk
    have hsum := sumSizes_removeChild hfc
    have hex := (dirSizesExactB_unfold n hEx).1 hdir
    have hbd := (sizesBoundedB_unfold n hBd).1
    refine ⟨Node.mk n.name (resum (removeChild n.children c)) n.is_dir
      (removeChild n.children c) n.path, ?_, by simp, by simp, by simp, ?_, ?_, ?_, ?_⟩
    · simp [deleteRel, hfc]
    · simp only [Node.size_mk]
      rw [resum_eq_min]
      omega
    · intro q s hqs A hA
      obtain ⟨rfl, rfl⟩ := List.append_eq_nil.1 hqs
      simp only [lookupNode] at hA
      have hAn : A = n := by simpa using hA.symm
      subst hAn
      simp only [lookupNode]
      refine ⟨_, rfl, by simp, by simp, by simp, ?_⟩
      simp only [Node.size_mk]
      rw [resum_eq_min]
      omega
    · exact ⟨n, Node.mk n.name (resum (removeChild n.children c)) n.is_dir
        (removeChild n.children c) n.path,
        by simp [lookupNode], by simp [lookupNode], by simp⟩
    · intro c2 r hne
      simp only [List.nil_append, lookupNode, Node.children_mk]
      rw [findChild_removeChild_other hne]
  | c0 :: rel', n, c, X, hEx, hBd, hCh, hLk => by
    obtain ⟨hdir, hChRest⟩ := chainAllDirs_cons hCh
    rw [List.cons_append] at hLk
    simp only [lookupNode] at hLk
    cases hB : findChild n.children c0 with
    | none => rw [hB] at hLk; simp at hLk
    | some B =>
      rw [hB] at hLk
      simp only at hLk
      have hBmem : B ∈ n.children := findChild_mem hB
      have hBname : B.name = c0 := findChild_name hB
      have hBEx : dirSizesExactB B = true := (dirSizesExactB_unfold n hEx).2 B hBmem
      have hBBd : sizesBoundedB B = true := (sizesBoundedB_unfold n hBd).2 B hBmem
      obtain ⟨B', hDel, hBn, hBp, hBd', hBsz, hAnc, hKids, hDiv⟩ :=
        deleteRel_spec rel' B c X hBEx hBBd (hChRest B hB) hLk
      have hsum := sumSizes_setChild B' hB
      have hex := (dirSizesExactB_unfold n hEx).1 hdir
      have hbd := (sizesBoundedB_unfold n hBd).1
      have hfcB' : findChild (setChild n.children c0 B') c0 = some B' :=
        findChild_setChild_self hB (by rw [hBn, hBname])
      refine ⟨Node.mk n.name (resum (setChild n.children c0 B')) n.is_dir
        (setChild n.children c0 B') n.path, ?_, by simp, by simp, by simp, ?_, ?_, ?_, ?_⟩
      · rw [List.cons_append, deleteRel_cons _ _ _ (by simp)]
        rw [hB]
        simp only [hDel]
      · simp only [Node.size_mk]
        rw [resum_eq_min]
        omega
      · intro q s hqs A hA
        cases q with
        | nil =>
          simp only [lookupNode] at hA
          have hAn : A = n := by simpa using hA.symm
          subst hAn
          simp only [lookupNode]
          refine ⟨_, rfl, by simp, by simp, by simp, ?_⟩
          simp only [Node.size_mk]
          rw [resum_eq_min]
          omega
        | cons c1 q' =>
          rw [List.cons_append] at hqs
          injection hqs with hc1 hq's
          have hc1' := hc1.symm
          subst hc1'
          simp only [lookupNode, Node.children_mk] at hA ⊢
          rw [hB] at hA
          rw [hfcB']
          exact hAnc q' s hq's A hA
      · obtain ⟨P, P', hP, hP', hPch⟩ := hKids
        refine ⟨P, P', ?_, ?_, hPch⟩
        · simp only [lookupNode]
          rw [hB]
          exact hP
        · simp only [lookupNode, Node.children_mk]
          rw [hfcB']
          exact hP'
      · intro c2 r hne
        simp only [List.cons_append, lookupNode, Node.children_mk]
        rw [hB, hfcB']
        exact hDiv c2 r hne

theorem chainAllDirs_of_append : ∀ (p r : List String) (n : Node),
    chainAllDirs n (p ++ r) = true → chainAllDirs n p = true
  | [], r, n => by
    intro h
    cases r with
    | nil => simpa using h
    | cons c rest =>
      simp only [List.nil_append] at h
      have := (chainAllDirs_cons h).1
      simpa [chainAllDirs] using this
  | c :: p', r, n => by
    intro h
    rw [List.cons_append] at h
    obtain ⟨hdir, hrest⟩ := chainAllDirs_cons h
    simp only [chainAllDirs, Bool.and_eq_true]
    constructor
    · exact hdir
    · cases hfc : findChild n.children c with
      | none => simp
      | some child =>
        simpa using chainAllDirs_of_append p' r child (hrest child hfc)

/-- C3: in a completed tree (exact, bounded sizes along an all-directory
chain), deleting file `F` of size `S` inside directory `D` succeeds, reduces
the size of `D` and of every ancestor of `D` by exactly `S`, and removes `F`
from `D`'s children; deleting directory `D` itself removes `D` with its
entire subtree and reduces every ancestor's size by `D`'s pre-deletion size.
The deletion is the spec-modelled `delete_node` (`Node::delete_node` is
called by the TUI but missing from `src/`); the `…path` hypotheses record
the path discipline every scan-built tree satisfies, and the `…once`
hypotheses say the removed name occurs once among its siblings. -/
theorem C3_delete_file_and_directory (R : Node) (q : List String)
    (dn fn : String) (D F P : Node)
    (hEx : dirSizesExactB R = true)
    (hBd : sizesBoundedB R = true)
    (hCh : chainAllDirs R (q ++ [dn]) = true)
    (hD : lookupNode R (q ++ [dn]) = some D)
    (hP : lookupNode R q = some P)
    (hF : findChild D.children fn = some F)
    (hFdir : F.is_dir = false)
    (hFpath : F.path = R.path ++ (q ++ [dn] ++ [fn]))
    (hDpath : D.path = R.path ++ (q ++ [dn]))
    (hFonce : findChild (removeChild D.children fn) fn = none)
    (hDonce : findChild (removeChild P.children dn) dn = none) :
    (∃ R', delete_node R F.path = .ok R' ∧
      (∀ p s, p ++ s = q ++ [dn] → ∀ A, lookupNode R p = some A →
        ∃ A', lookupNode R' p = some A' ∧ A'.size + F.size = A.size) ∧
      (∃ D', lookupNode R' (q ++ [dn]) = some D' ∧
        D'.children = removeChild D.children fn ∧
        findChild D'.children fn = none)) ∧
    (∃ R2, delete_node R D.path = .ok R2 ∧
      lookupNode R2 (q ++ [dn]) = none ∧
      (∀ p s, p ++ s = q → ∀ A, lookupNode R p = some A →
        ∃ A', lookupNode R2 p = some A' ∧ A'.size + D.size = A.size)) := by
  constructor
  · have hLkF : lookupNode R ((q ++ [dn]) ++ [fn]) = some F := by
      rw [lookup_append, hD]
      simp [lookupNode, hF]
    obtain ⟨R', hdel, _, _, _, _, hAnc, hKids, _⟩ :=
      deleteRel_spec (q ++ [dn]) R fn F hEx hBd hCh hLkF
    have hrelF : relativeTo R.path F.path = some (q ++ [dn] ++ [fn]) := by
      rw [hFpath]; exact relativeTo_append _ _
    refine ⟨R', ?_, ?_, ?_⟩
    · rw [delete_node_eq R F.path (q ++ [dn] ++ [fn]) hrelF (by simp)]
      exact hdel
    · intro p s hps A hA
      obtain ⟨A', hA', _, _, _, hsz⟩ := hAnc p s hps A hA
      exact ⟨A', hA', hsz⟩
    · obtain ⟨P0, D', hP0, hD', hDch⟩ := hKids
      have hP0D : P0 = D := by
        rw [hD] at hP0
        simpa using hP0.symm
      subst hP0D
      exact ⟨D', hD', hDch, by rw [hDch, hFonce]⟩
  · have hChq : chainAllDirs R q = true := chainAllDirs_of_append q [dn] R hCh
    obtain ⟨R2, hdel2, _, _, _, _, hAnc2, hKids2, _⟩ :=
      deleteRel_spec q R dn D hEx hBd hChq hD
    have hrelD : relativeTo R.path D.path = some (q ++ [dn]) := by
      rw [hDpath]; exact relativeTo_append _ _
    refine ⟨R2, ?_, ?_, ?_⟩
    · rw [delete_node_eq R D.path (q ++ [dn]) hrelD (by simp)]
      exact hdel2
    · obtain ⟨P0, P', hP0, hP', hPch⟩ := hKids2
      have hP0P : P0 = P := by
        rw [hP] at hP0
        simpa using hP0.symm
      subst hP0P
      rw [lookup_append, hP']
      simp [lookupNode, hPch, hDonce]
    · intro p s hps A hA
      obtain ⟨A', hA', _, _, _, hsz⟩ := hAnc2 p s hps A hA
      exact ⟨A', hA', hsz⟩

/-- Witness for `C3_delete_file_and_directory`: root `r` (size 150) holds
file `a` (100 bytes) and directory `d` (size 50) holding file `f`
(50 bytes); `q = []`, so `d`'s only ancestor is the root. -/
theorem C3_witness :
    (∃ R', delete_node
        (Node.mk "r" 150 true
          [Node.mk "a" 100 false [] ["r", "a"],
           Node.mk "d" 50 true [Node.mk "f" 50 false [] ["r", "d", "f"]] ["r", "d"]]
          ["r"])
        (Node.mk "f" 50 false [] ["r", "d", "f"]).path = .ok R' ∧
      (∀ p s, p ++ s = [] ++ ["d"] → ∀ A, lookupNode
          (Node.mk "r" 150 true
            [Node.mk "a" 100 false [] ["r", "a"],
             Node.mk "d" 50 true [Node.mk "f" 50 false [] ["r", "d", "f"]] ["r", "d"]]
            ["r"]) p = some A →
        ∃ A', lookupNode R' p = some A' ∧
          A'.size + (Node.mk "f" 50 false [] ["r", "d", "f"]).size = A.size) ∧
      (∃ D', lookupNode R' ([] ++ ["d"]) = some D' ∧
        D'.children = removeChild
          (Node.mk "d" 50 true [Node.mk "f" 50 false [] ["r", "d", "f"]] ["r", "d"]).children
          "f" ∧
        findChild D'.children "f" = none)) ∧
    (∃ R2, delete_node
        (Node.mk "r" 150 true
          [Node.mk "a" 100 false [] ["r", "a"],
           Node.mk "d" 50 true [Node.mk "f" 50 false [] ["r", "d", "f"]] ["r", "d"]]
          ["r"])
        (Node.mk "d" 50 true [Node.mk "f" 50 false [] ["r", "d", "f"]] ["r", "d"]).path =
          .ok R2 ∧
      lookupNode R2 ([] ++ ["d"]) = none ∧
      (∀ p s, p ++ s = ([] : List String) → ∀ A, lookupNode
          (Node.mk "r" 150 true
            [Node.mk "a" 100 false [] ["r", "a"],
             Node.mk "d" 50 true [Node.mk "f" 50 false [] ["r", "d", "f"]] ["r", "d"]]
            ["r"]) p = some A →
        ∃ A', lookupNode R2 p = some A' ∧
          A'.size + (Node.mk "d" 50 true [Node.mk "f" 50 false [] ["r", "d", "f"]]
            ["r", "d"]).size = A.size)) :=
  C3_delete_file_and_directory
    (Node.mk "r" 150 true
      [Node.mk "a" 100 false [] ["r", "a"],
       Node.mk "d" 50 true [Node.mk "f" 50 false [] ["r", "d", "f"]] ["r", "d"]]
      ["r"])
    [] "d" "f"
    (Node.mk "d" 50 true [Node.mk "f" 50 false [] ["r", "d", "f"]] ["r", "d"])
    (Node.mk "f" 50 false [] ["r", "d", "f"])
    (Node.mk "r" 150 true
      [Node.mk "a" 100 false [] ["r", "a"],
       Node.mk "d" 50 true [Node.mk "f" 50 false [] ["r", "d", "f"]] ["r", "d"]]
      ["r"])
    (by decide) (by decide) (by decide)
    (by rfl) (by rfl) (by rfl)
    (by rfl) (by rfl) (by rfl)
    (by rfl) (by rfl)

-- ===========================================================================
-- C7: cursor rebasing
-- ===========================================================================

theorem resolveChain_of_prefixes : ∀ (q : List String) (n : Node),
    (∀ p s, p ++ s = q → (lookupNode n p).isSome = true) →
    ∃ l, resolveChain n q = some l ∧ (n :: l).getLast? = lookupNode n q
  | [], n, _ => ⟨[], rfl, by simp [lookupNode]⟩
  | c :: rest, n, hpre => by
    have h1 : (lookupNode n [c]).isSome = true := hpre [c] rest rfl
    cases hfc : findChild n.children c with
    | none =>
      rw [show lookupNode n [c] = none by simp [lookupNode, hfc]] at h1
      simp at h1
    | some child =>
      have hpre' : ∀ p s, p ++ s = rest → (lookupNode child p).isSome = true := by
        intro p s hps
        have := hpre (c :: p) s (by rw [List.cons_append, hps])
        simpa [lookupNode, hfc] using this
      obtain ⟨l, hres, hlast⟩ := resolveChain_of_prefixes rest child hpre'
      refine ⟨child :: l, ?_, ?_⟩
      · simp [resolveChain, hfc, hres]
      · rw [show lookupNode n (c :: rest) = lookupNode child rest by
          simp [lookupNode, hfc]]
        rw [← hlast, List.getLast?_cons_cons]

theorem lookup_isSome_of_append (n : Node) (p s : List String)
    (h : (lookupNode n (p ++ s)).isSome = true) :
    (lookupNode n p).isSome = true := by
  rw [lookup_append] at h
  cases hx : lookupNode n p with
  | none => rw [hx] at h; simp at h
  | some m => simp

/-- C7, counterexample: the cursor's former target `r/a/b` no longer exists,
but its ancestor `r/a` does; the claim says the cursor must be rebased to
that nearest existing ancestor, yet `rebuild_from_root` resets the whole
stack to the root as soon as one component fails to resolve. -/
theorem C7_counterexample :
    lookupNode
        (Node.mk "r" 0 true [Node.mk "a" 0 true [] ["r", "a"]] ["r"])
        ["a", "b"] = none ∧
      lookupNode
        (Node.mk "r" 0 true [Node.mk "a" 0 true [] ["r", "a"]] ["r"])
        ["a"] = some (Node.mk "a" 0 true [] ["r", "a"]) ∧
      rebuild_from_root
        [Node.mk "r" 0 true [Node.mk "a" 0 true [] ["r", "a"]] ["r"],
         Node.mk "a" 0 true [] ["r", "a"],
         Node.mk "b" 0 true [] ["r", "a", "b"]]
        (Node.mk "r" 0 true [Node.mk "a" 0 true [] ["r", "a"]] ["r"]) =
        [Node.mk "r" 0 true [Node.mk "a" 0 true [] ["r", "a"]] ["r"]] ∧
      ((rebuild_from_root
        [Node.mk "r" 0 true [Node.mk "a" 0 true [] ["r", "a"]] ["r"],
         Node.mk "a" 0 true [] ["r", "a"],
         Node.mk "b" 0 true [] ["r", "a", "b"]]
        (Node.mk "r" 0 true [Node.mk "a" 0 true [] ["r", "a"]] ["r"])).getLast?).map
          Node.path = some ["r"] := by
  refine ⟨rfl, rfl, ?_, ?_⟩ <;> rfl

/-- C7, amended: cursor rebasing is a pure function of the former cursor
path and the current root, but when the target no longer resolves the
cursor falls back to the ROOT at the first missing component, not to the
nearest existing ancestor (first conjunct).  Deleting the currently viewed
directory `D` still rebases the cursor to `D`'s parent, because the deletion
handler first drills up to the parent before rebuilding (second conjunct);
deleting a sibling that is not on the cursor's chain leaves the cursor's
target unchanged (third conjunct).  Deletion is the spec-modelled
`delete_node`. -/
theorem C7_amended :
    (∀ (nav : List Node) (root lastNode : Node) (relL : List String),
      nav.getLast? = some lastNode →
      relativeTo root.path lastNode.path = some relL →
      resolveChain root relL = none →
      rebuild_from_root nav root = [root]) ∧
    (∀ (R P D : Node) (nav : List Node) (q : List String) (dn : String),
      dirSizesExactB R = true → sizesBoundedB R = true →
      chainAllDirs R q = true →
      lookupNode R q = some P →
      lookupNode R (q ++ [dn]) = some D →
      P.path = R.path ++ q →
      D.path = R.path ++ (q ++ [dn]) →
      2 ≤ nav.length →
      nav.getLast? = some D →
      nav.dropLast.getLast? = some P →
      ∃ R', confirm_deletion R nav D.path =
          (R', rebuild_from_root nav.dropLast R') ∧
        ((rebuild_from_root nav.dropLast R').getLast?).map Node.path =
          some (R.path ++ q)) ∧
    (∀ (R P D S : Node) (nav : List Node) (q restC : List String)
        (sn cn : String),
      dirSizesExactB R = true → sizesBoundedB R = true →
      chainAllDirs R q = true →
      lookupNode R q = some P →
      lookupNode R (q ++ [sn]) = some S →
      lookupNode R (q ++ cn :: restC) = some D →
      sn ≠ cn →
      S.path = R.path ++ (q ++ [sn]) →
      D.path = R.path ++ (q ++ cn :: restC) →
      nav.getLast? = some D →
      ∃ R', confirm_deletion R nav S.path = (R', rebuild_from_root nav R') ∧
        lookupNode R' (q ++ cn :: restC) = some D ∧
        ((rebuild_from_root nav R').getLast?).map Node.path = some D.path) := by
  refine ⟨?_, ?_, ?_⟩
  · intro nav root lastNode relL hlast hrel hres
    simp only [rebuild_from_root, hlast]
    by_cases hpath : lastNode.path = root.path
    · simp [hpath]
    · simp [hpath, hrel, hres]
  · intro R P D nav q dn hEx hBd hChq hP hD hPpath hDpath hlen hnavD hlastP
    obtain ⟨R', hdel, _, hR'path, _, _, hAnc, hKids, hDiv⟩ :=
      deleteRel_spec q R dn D hEx hBd hChq hD
    have hrelD : relativeTo R.path D.path = some (q ++ [dn]) := by
      rw [hDpath]; exact relativeTo_append _ _
    have hdelete : delete_node R D.path = .ok R' := by
      rw [delete_node_eq R D.path (q ++ [dn]) hrelD (by simp)]
      exact hdel
    have hconf : confirm_deletion R nav D.path =
        (R', rebuild_from_root nav.dropLast R') := by
      simp only [confirm_deletion, hdelete, hnavD, Option.map_some, drillUp,
        if_pos (by omega : 1 < nav.length)]
      simp
    refine ⟨R', hconf, ?_⟩
    have hpre : ∀ p s, p ++ s = q → (lookupNode R' p).isSome = true := by
      intro p s hps
      have hRp : (lookupNode R p).isSome = true := by
        apply lookup_isSome_of_append R p s
        rw [hps, hP]
        rfl
      cases hx : lookupNode R p with
      | none => rw [hx] at hRp; simp at hRp
      | some A =>
        obtain ⟨A', hA', _⟩ := hAnc p s hps A hx
        rw [hA']
        rfl
    obtain ⟨P', hP', hP'name, hP'path, _, _⟩ := by
      have := hAnc q [] (by simp) P hP
      exact this
    cases hq : q with
    | nil =>
      subst hq
      simp only [rebuild_from_root, hlastP]
      rw [if_pos (by rw [hPpath, hR'path]; simp)]
      simp [hR'path]
    | cons c0 q' =>
      subst hq
      have hne : ¬ P.path = R'.path := by
        rw [hPpath, hR'path]
        simp
      have hrelP : relativeTo R'.path P.path = some (c0 :: q') := by
        rw [hR'path, hPpath]
        exact relativeTo_append _ _
      obtain ⟨l, hres, hlast'⟩ := resolveChain_of_prefixes (c0 :: q') R' hpre
      simp only [rebuild_from_root, hlastP, if_neg hne, hrelP, hres]
      rw [hlast', hP']
      simp [hP'path, hPpath]
  · intro R P D S nav q restC sn cn hEx hBd hChq hP hS hLkD hne hSpath hDpath hnavD
    obtain ⟨R', hdel, _, hR'path, _, _, hAnc, hKids, hDiv⟩ :=
      deleteRel_spec q R sn S hEx hBd hChq hS
    have hrelS : relativeTo R.path S.path = some (q ++ [sn]) := by
      rw [hSpath]; exact relativeTo_append _ _
    have hdelete : delete_node R S.path = .ok R' := by
      rw [delete_node_eq R S.path (q ++ [sn]) hrelS (by simp)]
      exact hdel
    have hDS : ¬ D.path = S.path := by
      rw [hDpath, hSpath]
      intro hcontra
      have h1 := List.append_cancel_left hcontra
      have h2 := List.append_cancel_left h1
      simp only [List.cons.injEq] at h2
      exact hne h2.1.symm
    have hdivD : lookupNode R' (q ++ cn :: restC) = some D := by
      rw [hDiv cn restC (fun hcontra => hne hcontra.symm)]
      exact hLkD
    have hconf : confirm_deletion R nav S.path = (R', rebuild_from_root nav R') := by
      simp only [confirm_deletion, hdelete, hnavD, Option.map_some]
      rw [if_neg (by simpa using hDS)]
    refine ⟨R', hconf, hdivD, ?_⟩
    have hpre : ∀ p s, p ++ s = q ++ cn :: restC →
        (lookupNode R' p).isSome = true := by
      intro p s hps
      rcases List.append_eq_append_iff.1 hps with ⟨a', hqa, _⟩ | ⟨c', hpc, hrest⟩
      · have hRp : (lookupNode R p).isSome = true := by
          apply lookup_isSome_of_append R p a'
          rw [← hqa, hP]
          rfl
        cases hx : lookupNode R p with
        | none => rw [hx] at hRp; simp at hRp
        | some A =>
          obtain ⟨A', hA', _⟩ := hAnc p a' hqa.symm A hx
          rw [hA']
          rfl
      · cases hc' : c' with
        | nil =>
          subst hc'
          simp only [List.append_nil] at hpc
          subst hpc
          obtain ⟨A', hA', _⟩ := hAnc p [] (by simp) P hP
          rw [hA']
          rfl
        | cons x r =>
          subst hc'
          rw [List.cons_append] at hrest
          injection hrest with hx hrs
          subst hx
          subst hpc
          rw [hDiv cn r (fun hcontra => hne hcontra.symm)]
          apply lookup_isSome_of_append R (q ++ cn :: r) s
          have : q ++ cn :: r ++ s = q ++ cn :: restC := by
            simp [hrs]
          rw [this, hLkD]
          rfl
    have hDroot : ¬ D.path = R'.path := by
      rw [hDpath, hR'path]
      simp
    have hrelD : relativeTo R'.path D.path = some (q ++ cn :: restC) := by
      rw [hR'path, hDpath]
      exact relativeTo_append _ _
    obtain ⟨l, hres, hlast'⟩ := resolveChain_of_prefixes (q ++ cn :: restC) R' hpre
    simp only [rebuild_from_root, hnavD, if_neg hDroot, hrelD, hres]
    rw [hlast', hdivD]
    rfl

/-- Witness for `C7_amended`, instantiating all three conjuncts on concrete
trees: a dangling cursor falls back to the root; deleting the viewed
directory `d` under root `r` lands the cursor on `r`; deleting the sibling
file `a` while viewing `d` leaves the cursor on `d`. -/
theorem C7_amended_witness :
    rebuild_from_root
        [Node.mk "r" 0 true [] ["r"], Node.mk "b" 0 true [] ["r", "b"]]
        (Node.mk "r" 0 true [] ["r"]) = [Node.mk "r" 0 true [] ["r"]] ∧
      (∃ R', confirm_deletion
          (Node.mk "r" 150 true
            [Node.mk "a" 100 false [] ["r", "a"],
             Node.mk "d" 50 true [Node.mk "f" 50 false [] ["r", "d", "f"]] ["r", "d"]]
            ["r"])
          [Node.mk "r" 150 true
            [Node.mk "a" 100 false [] ["r", "a"],
             Node.mk "d" 50 true [Node.mk "f" 50 false [] ["r", "d", "f"]] ["r", "d"]]
            ["r"],
           Node.mk "d" 50 true [Node.mk "f" 50 false [] ["r", "d", "f"]] ["r", "d"]]
          (Node.mk "d" 50 true [Node.mk "f" 50 false [] ["r", "d", "f"]] ["r", "d"]).path =
          (R', rebuild_from_root
            [Node.mk "r" 150 true
              [Node.mk "a" 100 false [] ["r", "a"],
               Node.mk "d" 50 true [Node.mk "f" 50 false [] ["r", "d", "f"]] ["r", "d"]]
              ["r"],
             Node.mk "d" 50 true [Node.mk "f" 50 false [] ["r", "d", "f"]] ["r", "d"]].dropLast
            R') ∧
        ((rebuild_from_root
            [Node.mk "r" 150 true
              [Node.mk "a" 100 false [] ["r", "a"],
               Node.mk "d" 50 true [Node.mk "f" 50 false [] ["r", "d", "f"]] ["r", "d"]]
              ["r"],
             Node.mk "d" 50 true [Node.mk "f" 50 false [] ["r", "d", "f"]] ["r", "d"]].dropLast
            R').getLast?).map Node.path = some (["r"] ++ [])) ∧
      (∃ R', confirm_deletion
          (Node.mk "r" 150 true
            [Node.mk "a" 100 false [] ["r", "a"],
             Node.mk "d" 50 true [Node.mk "f" 50 false [] ["r", "d", "f"]] ["r", "d"]]
            ["r"])
          [Node.mk "r" 150 true
            [Node.mk "a" 100 false [] ["r", "a"],
             Node.mk "d" 50 true [Node.mk "f" 50 false [] ["r", "d", "f"]] ["r", "d"]]
            ["r"],
           Node.mk "d" 50 true [Node.mk "f" 50 false [] ["r", "d", "f"]] ["r", "d"]]
          (Node.mk "a" 100 false [] ["r", "a"]).path =
          (R', rebuild_from_root
            [Node.mk "r" 150 true
              [Node.mk "a" 100 false [] ["r", "a"],
               Node.mk "d" 50 true [Node.mk "f" 50 false [] ["r", "d", "f"]] ["r", "d"]]
              ["r"],
             Node.mk "d" 50 true [Node.mk "f" 50 false [] ["r", "d", "f"]] ["r", "d"]]
            R') ∧
        lookupNode R' ([] ++ "d" :: []) =
          some (Node.mk "d" 50 true [Node.mk "f" 50 false [] ["r", "d", "f"]] ["r", "d"]) ∧
        ((rebuild_from_root
            [Node.mk "r" 150 true
              [Node.mk "a" 100 false [] ["r", "a"],
               Node.mk "d" 50 true [Node.mk "f" 50 false [] ["r", "d", "f"]] ["r", "d"]]
              ["r"],
             Node.mk "d" 50 true [Node.mk "f" 50 false [] ["r", "d", "f"]] ["r", "d"]]
            R').getLast?).map Node.path =
          some (Node.mk "d" 50 true [Node.mk "f" 50 false [] ["r", "d", "f"]]
            ["r", "d"]).path) :=
  ⟨C7_amended.1
      [Node.mk "r" 0 true [] ["r"], Node.mk "b" 0 true [] ["r", "b"]]
      (Node.mk "r" 0 true [] ["r"]) (Node.mk "b" 0 true [] ["r", "b"]) ["b"]
      rfl rfl rfl,
    C7_amended.2.1
      (Node.mk "r" 150 true
        [Node.mk "a" 100 false [] ["r", "a"],
         Node.mk "d" 50 true [Node.mk "f" 50 false [] ["r", "d", "f"]] ["r", "d"]]
        ["r"])
      (Node.mk "r" 150 true
        [Node.mk "a" 100 false [] ["r", "a"],
         Node.mk "d" 50 true [Node.mk "f" 50 false [] ["r", "d", "f"]] ["r", "d"]]
        ["r"])
      (Node.mk "d" 50 true [Node.mk "f" 50 false [] ["r", "d", "f"]] ["r", "d"])
      [Node.mk "r" 150 true
        [Node.mk "a" 100 false [] ["r", "a"],
         Node.mk "d" 50 true [Node.mk "f" 50 false [] ["r", "d", "f"]] ["r", "d"]]
        ["r"],
       Node.mk "d" 50 true [Node.mk "f" 50 false [] ["r", "d", "f"]] ["r", "d"]]
      [] "d"
      (by decide) (by decide) (by decide) rfl rfl rfl rfl (by decide) rfl rfl,
    C7_amended.2.2
      (Node.mk "r" 150 true
        [Node.mk "a" 100 false [] ["r", "a"],
         Node.mk "d" 50 true [Node.mk "f" 50 false [] ["r", "d", "f"]] ["r", "d"]]
        ["r"])
      (Node.mk "r" 150 true
        [Node.mk "a" 100 false [] ["r", "a"],
         Node.mk "d" 50 true [Node.mk "f" 50 false [] ["r", "d", "f"]] ["r", "d"]]
        ["r"])
      (Node.mk "d" 50 true [Node.mk "f" 50 false [] ["r", "d", "f"]] ["r", "d"])
      (Node.mk "a" 100 false [] ["r", "a"])
      [Node.mk "r" 150 true
        [Node.mk "a" 100 false [] ["r", "a"],
         Node.mk "d" 50 true [Node.mk "f" 50 false [] ["r", "d", "f"]] ["r", "d"]]
        ["r"],
       Node.mk "d" 50 true [Node.mk "f" 50 false [] ["r", "d", "f"]] ["r", "d"]]
      [] [] "a" "d"
      (by decide) (by decide) (by decide) rfl rfl rfl (by decide) rfl rfl rfl⟩

end RustDirStat
